import Mathlib

/-!
# FernC front end: a shallow embedding with verified properties

This file embeds the core of the FernC compiler front end, a Rust
program, into Lean and proves properties of the embedding.

Modelling conventions used throughout:

* Source text is a `List Char`; byte offsets are computed with
  `Char.utf8Size`, matching Rust's byte-addressed UTF-8 strings.
* The whole development works with a single registered source, so the
  `SourceId` component of `SourcePos`/`Span` (always equal between the
  two ends of a span here) is omitted.  A `Span` is the pair of its
  start (inclusive) and end (exclusive) byte offsets.
* Rust panics (`assert!`, `todo!`, arithmetic underflow on `usize`,
  out-of-bounds indexing) are modelled by `Option`: `none` is a panic.
* Loops that can fail to terminate are modelled with an explicit fuel
  parameter; the fuel chosen by the wrappers provably suffices for
  every terminating execution, so `none` at every fuel amount models a
  non-terminating execution of the original loop.
-/

namespace FernC

/-- Source text, a sequence of characters (Rust `str` is UTF-8 encoded). -/
abbrev Text := List Char

/-- The length in bytes of a text under UTF-8 encoding (Rust `str::len`). -/
def utf8Length (t : Text) : Nat := (t.map Char.utf8Size).sum

/-- The list of all UTF-8 boundary byte offsets of a text, in increasing
order, from `0` up to and including the total byte length. -/
def boundaries : Text → List Nat
  | [] => [0]
  | c :: t => 0 :: (boundaries t).map (· + c.utf8Size)

/-- `b` is a UTF-8 code-point boundary of `t` (Rust `str::is_char_boundary`,
for offsets `≤ t.len()`). -/
def Boundary (t : Text) (b : Nat) : Prop := b ∈ boundaries t

instance (t : Text) (b : Nat) : Decidable (Boundary t b) := by
  unfold Boundary; infer_instance

/-- A range of characters within a source: inclusive `start` and exclusive
`stop` byte offsets (the source's `Span` with its `SourceId` dropped, as
explained in the header). -/
structure Span where
  start : Nat
  stop : Nat
deriving DecidableEq, Repr

/-! ## Source and newline index (`src/source_map.rs`) -/

/-- `Source::compute_newlines`: the byte indices of all `'\n'` characters in
the text (`match_indices`), with `text.len()` appended when the text does not
end in `'\n'`, so that every position maps to a line. -/
def newlineOffsets : Text → Nat → List Nat
  | [], _ => []
  | c :: t, ofs =>
      (if c = '\n' then [ofs] else []) ++ newlineOffsets t (ofs + c.utf8Size)

def computeNewlines (text : Text) : List Nat :=
  let newlines := newlineOffsets text 0
  if text.getLast? = some '\n' then newlines else newlines ++ [utf8Length text]

/-- One probe-halving pass of Rust `slice::binary_search` (`.inl` is `Ok`,
`.inr` is `Err`).  `fuel` bounds the number of iterations; each iteration
shrinks `right - left`, so the wrapper's choice of fuel always suffices. -/
def binarySearchGo (l : List Nat) (x : Nat) : Nat → Nat → Nat → Sum Nat Nat
  | 0, left, _ => .inr left
  | fuel + 1, left, right =>
      if left < right then
        let mid := left + (right - left) / 2
        let v := l.getD mid 0
        if v < x then binarySearchGo l x fuel (mid + 1) right
        else if x < v then binarySearchGo l x fuel left mid
        else .inl mid
      else .inr left

def binarySearch (l : List Nat) (x : Nat) : Sum Nat Nat :=
  binarySearchGo l x (l.length + 1) 0 l.length

/-- `Source::line_of`: 1-indexed line number of a byte offset, by binary
search over the newline index.  Both the `Ok` and the `Err` outcome map the
resulting index `i` to line `i + 1`. -/
def line_of (newlines : List Nat) (b : Nat) : Nat :=
  match binarySearch newlines b with
  | .inl i => i + 1
  | .inr i => i + 1

/-- `Source::first_byte_of_line` (1-indexed).  `none` models the `usize`
underflow of `line - 1` at `line = 0` and the out-of-bounds panic of
`self.newlines[line - 1]`. -/
def first_byte_of_line (newlines : List Nat) (line : Nat) : Option Nat :=
  match line with
  | 0 => none
  | line' + 1 =>
      if line' = 0 then some 0
      else (newlines.get? (line' - 1)).map (· + 1)

/-- `Source::pos_from_byte` followed by `Span::new`
(`Source::span`): asserts that both offsets are char boundaries and that
`start ≤ stop`; a failed assert is a panic, i.e. `none`. -/
def Source.span (text : Text) (start stop : Nat) : Option Span :=
  if Boundary text start ∧ Boundary text stop ∧ start ≤ stop then
    some ⟨start, stop⟩
  else none

/-- `Source::span_of_line`: the byte range of a 1-indexed line, excluding its
terminating newline. -/
def span_of_line (text : Text) (line : Nat) : Option Span := do
  let start ← first_byte_of_line (computeNewlines text) line
  let nextStart ← first_byte_of_line (computeNewlines text) (line + 1)
  if nextStart = 0 then none  -- usize underflow in `- 1` (unreachable)
  else Source.span text start (nextStart - 1)

/-- `Source::col_of`: 1-indexed column, derived from `line_of` and the first
byte of that line. -/
def col_of (text : Text) (b : Nat) : Option Nat := do
  let line := line_of (computeNewlines text) b
  let startByte ← first_byte_of_line (computeNewlines text) line
  some (b - startByte + 1)

/-- Drop the first `n` bytes of a text.  Only used at char-aligned `n`. -/
def byteDrop : Text → Nat → Text
  | t, 0 => t
  | [], _ => []
  | c :: t, n + 1 => byteDrop t (n + 1 - c.utf8Size)

/-- Take the first `n` bytes of a text.  Only used at char-aligned `n`. -/
def byteTake : Text → Nat → Text
  | _, 0 => []
  | [], _ => []
  | c :: t, n + 1 => c :: byteTake t (n + 1 - c.utf8Size)

/-- `Source::text_of_span`: the substring of the text at the span's byte
range. -/
def text_of_span (text : Text) (sp : Span) : Text :=
  byteTake (byteDrop text sp.start) (sp.stop - sp.start)

/-! ## Tokens and token trees (`src/lex/token.rs`) -/

inductive ParenType where
  | Paren | Bracket | Square
deriving DecidableEq, Repr

/-- `ParenType::new_from_char`.  Only called on delimiter characters; the
`unreachable!` arm is modelled by an arbitrary value (it is never hit by
the lexer, which matches delimiters before calling this). -/
def ParenType.new_from_char (c : Char) : ParenType :=
  if c = '(' ∨ c = ')' then .Paren
  else if c = '{' ∨ c = '}' then .Bracket
  else .Square

inductive TokenErrorTy where
  | IllegalChar
  | UnmatchedOpenParen
  | UnmatchedCloseParen
  | MismatchedParenTy (p : ParenType)
deriving DecidableEq, Repr

inductive TokenType where
  | Ident | IntLit
  | Fn | Let | If | While | For
  | Semicolon | Colon | Comma | RArrow
  | Plus | Minus | Mul | Div | Not
  | OrOr | AndAnd
  | Eq | EqEq | NotEq | Lt | Lte | Gt | Gte
  | EOF
  | Error (e : TokenErrorTy)
deriving DecidableEq, Repr

structure Token where
  ty : TokenType
  span : Span
deriving DecidableEq, Repr

/-- `TokenTree`: a leaf token, or a nested node with a delimiter kind, the
spans of its opening and closing delimiters, and its children
(`TokenTreeNode` inlined). -/
inductive TokenTree where
  | Leaf (t : Token)
  | Node (paren_ty : ParenType) (left : Span) (right : Span)
      (children : List TokenTree)
deriving Repr

/-! ## The lexer (`src/lex/mod.rs`) -/

/-- The lexer's `Cursor`.  `remaining` is the text at and after
`byte_offset`; `pending` is the accumulated text of the token in progress,
i.e. the characters in `[span_offset, byte_offset)` (the source tracks its
byte length `span_len = utf8Length pending` instead). -/
structure LexCursor where
  remaining : Text
  byteOffset : Nat
  spanOffset : Nat
  pending : Text
deriving Repr

def LexCursor.peek (c : LexCursor) : Option Char := c.remaining.head?

def LexCursor.peekIs (c : LexCursor) (ch : Char) : Bool := c.peek = some ch

/-- `Cursor::pop`: advance past the next character, accumulating it. -/
def LexCursor.pop (c : LexCursor) : Option (Char × LexCursor) :=
  match c.remaining with
  | [] => none
  | ch :: rest =>
      some (ch, ⟨rest, c.byteOffset + ch.utf8Size, c.spanOffset,
        c.pending ++ [ch]⟩)

/-- `Cursor::popped_as_span`: the span of the accumulated text, resetting the
accumulator.  The source builds the span through `Source::span_with_len`,
whose boundary asserts always hold here because the cursor only ever stops at
code-point boundaries (the chain invariant proved below); the checks are
therefore not threaded through the lexer. -/
def LexCursor.popped_as_span (c : LexCursor) : Span × LexCursor :=
  (⟨c.spanOffset, c.spanOffset + utf8Length c.pending⟩,
   ⟨c.remaining, c.byteOffset, c.byteOffset, []⟩)

def LexCursor.popped_text (c : LexCursor) : Text := c.pending

def LexCursor.popped_as_token (c : LexCursor) (ty : TokenType) :
    TokenTree × LexCursor :=
  let (sp, c') := c.popped_as_span
  (.Leaf ⟨ty, sp⟩, c')

def LexCursor.ignore (c : LexCursor) : LexCursor :=
  ⟨c.remaining, c.byteOffset, c.byteOffset, []⟩

/-- Rust `char::is_ascii_whitespace`: space, tab, newline, form feed,
carriage return. -/
def isAsciiWhitespace (c : Char) : Bool :=
  c = ' ' ∨ c = '\t' ∨ c = '\n' ∨ c = '\x0C' ∨ c = '\r'

def char_can_start_ident (c : Char) : Bool := c.isAlpha ∨ c = '_'

def char_can_continue_ident (c : Char) : Bool :=
  char_can_start_ident c ∨ c.isDigit

def ident_token_ty (ident : Text) : TokenType :=
  if ident = "fn".toList then .Fn
  else if ident = "let".toList then .Let
  else if ident = "if".toList then .If
  else if ident = "while".toList then .While
  else if ident = "for".toList then .For
  else .Ident

/-- The comment loop in `next_leaf_ty`:
`while !cursor.peek_is('\n') { cursor.pop(); }`.
At end of input the guard stays true while `pop` makes no progress, so the
Rust loop never exits; with `fuel ≥ remaining.length + 1` a `none` result
occurs exactly in that non-terminating case. -/
def skipCommentFuel : Nat → LexCursor → Option LexCursor
  | 0, _ => none
  | fuel + 1, c =>
      if c.peekIs '\n' then some c
      else
        match c.pop with
        | none => skipCommentFuel fuel c
        | some (_, c') => skipCommentFuel fuel c'

def skipComment (c : LexCursor) : Option LexCursor :=
  skipCommentFuel (c.remaining.length + 1) c

/-- The numeric-literal loop in `next_leaf_ty`:
`while cursor.peek().is_some_and(|c| c.is_ascii_digit()) { cursor.pop(); }`.
Each iteration consumes a character, so `remaining.length + 1` fuel always
suffices (proved in `skipDigitsFuel_spec`). -/
def skipDigitsFuel : Nat → LexCursor → LexCursor
  | 0, c => c
  | fuel + 1, c =>
      match c.pop with
      | none => c
      | some (ch, c') => if ch.isDigit then skipDigitsFuel fuel c' else c

def skipDigits (c : LexCursor) : LexCursor :=
  skipDigitsFuel (c.remaining.length + 1) c

/-- The identifier loop in `next_leaf_ty`. -/
def skipIdentFuel : Nat → LexCursor → LexCursor
  | 0, c => c
  | fuel + 1, c =>
      match c.pop with
      | none => c
      | some (ch, c') =>
          if char_can_continue_ident ch then skipIdentFuel fuel c' else c

def skipIdent (c : LexCursor) : LexCursor :=
  skipIdentFuel (c.remaining.length + 1) c

/-- Pop one character, for the second character of a two-character operator;
the preceding `peek_is` guard guarantees success, so the default is never
used. -/
def LexCursor.pop1 (c : LexCursor) : LexCursor :=
  match c.pop with
  | none => c
  | some (_, c') => c'

/-- `Lexer::next_leaf_ty`, called from `get_tokens` with the already-popped
character `next`.  The result is `none` when the comment loop inside it
fails to terminate; `some (none, c)` when the input is discarded
(whitespace, comment); `some (some ty, c)` for an ordinary token.  The
delimiter arm of the original is `unreachable!` (the caller handles
delimiters first) and is never hit. -/
def next_leaf_ty (next : Char) (c : LexCursor) :
    Option (Option TokenType × LexCursor) :=
  if isAsciiWhitespace next then some (none, c.ignore)
  else if next = '/' ∧ c.peekIs '/' then
    match skipComment c with
    | none => none
    | some c' => some (none, c'.ignore)
  else if next.isDigit then some (some .IntLit, skipDigits c)
  else if char_can_start_ident next then
    let c' := skipIdent c
    some (some (ident_token_ty c'.popped_text), c')
  else if next = '+' then some (some .Plus, c)
  else if next = '-' ∧ c.peekIs '>' then some (some .RArrow, c.pop1)
  else if next = '-' then some (some .Minus, c)
  else if next = '*' then some (some .Mul, c)
  else if next = '/' then some (some .Div, c)
  else if next = '!' ∧ c.peekIs '=' then some (some .NotEq, c.pop1)
  else if next = '!' then some (some .Not, c)
  else if next = '|' ∧ c.peekIs '|' then some (some .OrOr, c.pop1)
  else if next = '&' ∧ c.peekIs '&' then some (some .AndAnd, c.pop1)
  else if next = '=' ∧ c.peekIs '=' then some (some .EqEq, c.pop1)
  else if next = '=' then some (some .Eq, c)
  else if next = '<' ∧ c.peekIs '=' then some (some .Lte, c.pop1)
  else if next = '<' then some (some .Lt, c)
  else if next = '>' ∧ c.peekIs '=' then some (some .Gte, c.pop1)
  else if next = '>' then some (some .Gt, c)
  else if next = ';' then some (some .Semicolon, c)
  else if next = ':' then some (some .Colon, c)
  else if next = ',' then some (some .Comma, c)
  else if next = '(' ∨ next = ')' ∨ next = '{' ∨ next = '}' ∨ next = '['
      ∨ next = ']' then
    none  -- `unreachable!()` panic; `get_tokens` never reaches this arm
  else some (some (.Error .IllegalChar), c)

/-- One entry of the lexer's explicit delimiter stack
(`Vec<(ParenType, Span, Vec<TokenTree>)>`).  The head of the Lean list is
the top of the stack (the innermost open delimiter). -/
structure Frame where
  ty : ParenType
  span : Span
  tokens : List TokenTree
deriving Repr

/-- The end-of-input drain of `get_tokens`: every delimiter still on the
stack is an unmatched opener; from innermost to outermost, replace it with
an error token and splice its pending children back in front of what
followed.  Finally the `EOF` token is appended. -/
def finishTokens (cursor : LexCursor) (stack : List Frame)
    (tokens : List TokenTree) : List TokenTree :=
  let tokens := stack.foldl
    (fun toks f =>
      f.tokens ++ ([TokenTree.Leaf ⟨.Error .UnmatchedOpenParen, f.span⟩] ++ toks))
    tokens
  tokens ++ [(cursor.popped_as_token .EOF).1]

/-- The body of `Lexer::get_tokens`' `while let Some(next) = cursor.pop()`
loop.  Every iteration consumes at least the popped character, so
`remaining.length + 1` fuel always suffices; `none` therefore models the
non-termination of the comment loop (or the `unreachable!` panic, which is
never hit). -/
def getTokensFuel : Nat → LexCursor → List Frame → List TokenTree →
    Option (List TokenTree)
  | 0, _, _, _ => none
  | fuel + 1, cursor, stack, tokens =>
      match cursor.pop with
      | none => some (finishTokens cursor stack tokens)
      | some (next, c1) =>
        if next = '(' ∨ next = '{' ∨ next = '[' then
          let (sp, c2) := c1.popped_as_span
          getTokensFuel fuel c2
            (⟨ParenType.new_from_char next, sp, tokens⟩ :: stack) []
        else if next = ')' ∨ next = '}' ∨ next = ']' then
          match stack with
          | [] =>
              -- No matching parenthesis: replace this token with an error.
              let (tok, c2) := c1.popped_as_token (.Error .UnmatchedCloseParen)
              getTokensFuel fuel c2 [] (tokens ++ [tok])
          | frame :: stackRest =>
              let right_ty := ParenType.new_from_char next
              let (right_span, c2) := c1.popped_as_span
              let tokens :=
                if frame.ty ≠ right_ty then
                  tokens ++ [TokenTree.Leaf
                    ⟨.Error (.MismatchedParenTy right_ty), right_span⟩]
                else tokens
              let tree := TokenTree.Node frame.ty frame.span right_span tokens
              getTokensFuel fuel c2 stackRest (frame.tokens ++ [tree])
        else
          match next_leaf_ty next c1 with
          | none => none
          | some (none, c2) => getTokensFuel fuel c2 stack tokens
          | some (some ty, c2) =>
              let (tok, c3) := c2.popped_as_token ty
              getTokensFuel fuel c3 stack (tokens ++ [tok])

/-- `Lexer::get_tokens` on a whole source text. -/
def get_tokens (text : Text) : Option (List TokenTree) :=
  getTokensFuel (text.length + 1) ⟨text, 0, 0, []⟩ [] []

/-! ## Diagnostics (`src/diagnostics/mod.rs`, `src/diagnostics/specifics.rs`) -/

structure DiagnosticPart where
  span : Span
  help : Text
deriving DecidableEq, Repr

structure Diagnostic where
  msg : Text
  parts : List DiagnosticPart
deriving DecidableEq, Repr

def Diagnostic.add_part (d : Diagnostic) (span : Span) (help : Text) :
    Diagnostic :=
  { d with parts := d.parts ++ [⟨span, help⟩] }

/-- `diagnostics::specifics::lex::illegal_char`. -/
def illegal_char (sp : Span) (text : Text) : Diagnostic :=
  Diagnostic.add_part
    ⟨"Illegal character `".toList ++ text_of_span text sp ++ "`.".toList, []⟩
    sp []

/-- `find_errors`: walk the tree (into nested children) collecting every
error-tagged leaf into a diagnostic.  Only the `IllegalChar` arm is
implemented in the source; the other three are `todo!()` macros, i.e. they
panic, modelled by `none`. -/
def find_errors (text : Text) : List TokenTree → Option (List Diagnostic)
  | [] => some []
  | TokenTree.Leaf tok :: rest =>
      match tok.ty with
      | .Error e =>
          match e with
          | .IllegalChar => do
              let others ← find_errors text rest
              pure (illegal_char tok.span text :: others)
          | .UnmatchedOpenParen => none       -- todo!()
          | .UnmatchedCloseParen => none      -- todo!()
          | .MismatchedParenTy _ => none      -- todo!()
      | _ => find_errors text rest
  | TokenTree.Node _ _ _ children :: rest => do
      let inner ← find_errors text children
      let others ← find_errors text rest
      pure (inner ++ others)

/-- `lex_source`: lex, harvest the errors, and return either all tokens (no
errors) or the list of diagnostics.  The outer `none` models a
non-terminating scan or a panic during harvesting. -/
def lex_source (text : Text) :
    Option (Except (List Diagnostic) (List TokenTree)) := do
  let tokens ← get_tokens text
  let errors ← find_errors text tokens
  if errors.isEmpty then pure (.ok tokens) else pure (.error errors)

/-! ## The parser cursor (`src/parse/mod.rs`) -/

/-- Modelled from the spec: the type a `TokenTree` exposes to the parser.
The parser source compares a tree's type with `TokenType::Parens` and
`TokenType::CurlyBrackets` and calls `TokenTree::ty()` and
`TokenTree::children()`, but the file defining that token-type enum and
those accessors is not under `src/` (the `TokenType` in `src/lex/token.rs`
has no delimiter variants, and `src/token.rs` is an older flat-token
snapshot).  Per the spec, a leaf exposes its token's type and a node
exposes its delimiter kind. -/
inductive TreeTy where
  | tok (t : TokenType)
  | Parens
  | CurlyBrackets
  | SquareBrackets
deriving DecidableEq, Repr

/-- Modelled from the spec: `TokenTree::ty` (see `TreeTy`). -/
def TokenTree.ty : TokenTree → TreeTy
  | .Leaf t => .tok t.ty
  | .Node p _ _ _ =>
      match p with
      | .Paren => .Parens
      | .Bracket => .CurlyBrackets
      | .Square => .SquareBrackets

/-- The parser's `Cursor`: a read-only view over a slice of sibling trees
with a current position. -/
structure PCursor where
  tokens : List TokenTree
  pos : Nat

def PCursor.is_eof (c : PCursor) : Bool := c.tokens.length ≤ c.pos

/-- The loop guard of `Cursor::sync_to`:
`!self.is_eof() && !sync_tokens.contains(&self.peek().ty())`.
When `is_eof` is false the index of `peek` is in bounds, so the `none` arm
(whose value is irrelevant thanks to the short-circuit) is never read. -/
def PCursor.syncGuard (c : PCursor) (sync : List TreeTy) : Bool :=
  !c.is_eof &&
    match c.tokens.get? c.pos with
    | some t => !(sync.contains t.ty)
    | none => true

/-- `Cursor::sync_to`:
`while !self.is_eof() && !sync_tokens.contains(&self.peek().ty()) {}`.
The loop body is empty — the cursor is never advanced — so the loop either
exits immediately or spins forever.  `none` models running out of fuel
while the guard still holds, i.e. non-termination. -/
def sync_toFuel (sync : List TreeTy) : Nat → PCursor → Option PCursor
  | 0, _ => none
  | fuel + 1, c =>
      if c.syncGuard sync then sync_toFuel sync fuel c else some c

/-! ## Helper notions used by the statements -/

def TokenTree.isNode : TokenTree → Bool
  | .Leaf _ => false
  | .Node _ _ _ _ => true

def TokenTree.isErrorLeaf (e : TokenErrorTy) : TokenTree → Bool
  | .Leaf t => t.ty = .Error e
  | .Node _ _ _ _ => false

/-- Does the tree contain an error-tagged leaf, at any depth? -/
def hasErrorLeaf : List TokenTree → Bool
  | [] => false
  | .Leaf t :: rest =>
      (match t.ty with | .Error _ => true | _ => false) || hasErrorLeaf rest
  | .Node _ _ _ children :: rest => hasErrorLeaf children || hasErrorLeaf rest

/-- Does the tree contain an `EOF` leaf, at any depth? -/
def hasEOF : List TokenTree → Bool
  | [] => false
  | .Leaf t :: rest => t.ty = .EOF || hasEOF rest
  | .Node _ _ _ children :: rest => hasEOF children || hasEOF rest

/-- Modelled from the spec: the span a whole `TokenTree` covers.  For a
leaf this is its token's span; per §3 of the spec a node's span covers the
delimiter pair, from the first byte of its opening delimiter to the last
byte of its closing delimiter (`TokenTree::span` is referenced by the
parser but not defined under `src/`). -/
def treeSpan : TokenTree → Span
  | .Leaf t => t.span
  | .Node _ left right _ => ⟨left.start, right.stop⟩

/-- The concatenation of `text_of_span` over every top-level tree's span. -/
def topSpanTexts (text : Text) (ts : List TokenTree) : Text :=
  (ts.map fun t => text_of_span text (treeSpan t)).flatten

/-- Follows the spec's words ("T with only whitespace/comments removed"):
drop every whitespace character and every `//` comment (up to, but not
including, the newline that ends it, which is itself whitespace).  Fuel is
the usual structural bound; `length + 1` always suffices. -/
def stripWsCommentsFuel : Nat → Text → Text
  | 0, _ => []
  | _ + 1, [] => []
  | fuel + 1, '/' :: '/' :: rest =>
      stripWsCommentsFuel fuel (rest.dropWhile (· ≠ '\n'))
  | fuel + 1, c :: rest =>
      if isAsciiWhitespace c then stripWsCommentsFuel fuel rest
      else c :: stripWsCommentsFuel fuel rest

def stripWsComments (t : Text) : Text := stripWsCommentsFuel (t.length + 1) t

/-- A piece of text the lexer may skip without emitting a token: a
concatenation of whitespace characters and `//` comments (a comment runs up
to, but not including, the next newline). -/
inductive Skippable : Text → Prop
  | nil : Skippable []
  | ws {c : Char} {rest : Text} : isAsciiWhitespace c = true →
      Skippable rest → Skippable (c :: rest)
  | comment {body rest : Text} : (∀ c ∈ body, c ≠ '\n') →
      Skippable rest → Skippable ('/' :: '/' :: body ++ rest)

/-- `SegJoin segs t`: the text `t` is the concatenation, in order, of the
given segments, interleaved with `Skippable` gaps (one before each segment
and one at the end). -/
inductive SegJoin : List Text → Text → Prop
  | nil {g : Text} : Skippable g → SegJoin [] g
  | cons {g seg : Text} {segs : List Text} {rest : Text} :
      Skippable g → SegJoin segs rest → SegJoin (seg :: segs) (g ++ seg ++ rest)

/-- `SpanChain text lo spans hi`: the byte range `[lo, hi)` of `text`
decomposes, in order, into the given spans' ranges separated by `Skippable`
gaps; all the byte offsets involved are code-point boundaries. -/
inductive SpanChain (text : Text) : Nat → List Span → Nat → Prop
  | nil {lo hi : Nat} : lo ≤ hi → Boundary text lo → Boundary text hi →
      Skippable (byteTake (byteDrop text lo) (hi - lo)) →
      SpanChain text lo [] hi
  | cons {lo hi : Nat} {s : Span} {spans : List Span} :
      lo ≤ s.start → s.start ≤ s.stop →
      Boundary text lo → Boundary text s.start → Boundary text s.stop →
      Skippable (byteTake (byteDrop text lo) (s.start - lo)) →
      SpanChain text s.stop spans hi →
      SpanChain text lo (s :: spans) hi

/-! ## The diagnostic renderer (`src/diagnostics/render.rs`) -/

/-- The renderer's view of the one registered source. -/
structure RSource where
  filename : Text
  text : Text

def BOLD : Text := "\x1b[1m".toList
def RED_FG : Text := "\x1b[91m".toList
def BLUE_FG : Text := "\x1b[94m".toList
def RESET : Text := "\x1b[0m".toList

inductive DiagnosticRenderLine where
  | SourcePos (pos : Nat)
  | Padding
  | CodeLine (line : Nat)
  | Highlight (span : Span) (message : Text)

def DiagnosticRenderLine.is_padding : DiagnosticRenderLine → Bool
  | .Padding => true
  | _ => false

def DiagnosticRenderLine.can_collapse_padding : DiagnosticRenderLine → Bool
  | .Highlight _ _ => true
  | _ => false

/-- Rust `u32::ilog10`, as a fuel-structural integer log: divide by ten
until the value drops below ten.  Since `n / 10 < n` whenever `n ≥ 10`,
fuel `n` always suffices (`ilog10` would panic at 0, but `line_of` only
produces positive line numbers, so that case is unreachable). -/
def ilog10Fuel : Nat → Nat → Nat
  | 0, _ => 0
  | fuel + 1, n => if n < 10 then 0 else ilog10Fuel fuel (n / 10) + 1

def ilog10 (n : Nat) : Nat := ilog10Fuel n n

/-- `DiagnosticRenderLine::gutter_width` (`line.ilog10() + 1`). -/
def DiagnosticRenderLine.gutter_width : DiagnosticRenderLine → Nat
  | .CodeLine line => ilog10 line + 1
  | _ => 0

/-- The part ordering used by `parts.sort_by_key(|p| p.span.start().byte())`. -/
def partStartLe (p q : DiagnosticPart) : Prop := p.span.start ≤ q.span.start

instance : DecidableRel partStartLe := fun p q =>
  inferInstanceAs (Decidable (p.span.start ≤ q.span.start))

instance : IsTotal DiagnosticPart partStartLe :=
  ⟨fun p q => Nat.le_total p.span.start q.span.start⟩

instance : IsTrans DiagnosticPart partStartLe :=
  ⟨fun _ _ _ h h' => Nat.le_trans h h'⟩

/-- The line-assembly loop body of `render` for one part.  The
`assert!(start_line == end_line, ..)` panic is `none`; under that assert
the `start_line..=end_line` loop runs exactly once, pushing the code line
and, for the starting line, the highlight. -/
def partLines (text : Text) (part : DiagnosticPart) :
    Option (List DiagnosticRenderLine) :=
  let start_line := line_of (computeNewlines text) part.span.start
  let end_line := line_of (computeNewlines text) part.span.stop
  if start_line = end_line then
    some [.SourcePos part.span.start, .Padding, .CodeLine start_line,
      .Highlight part.span part.help, .Padding]
  else none

/-- The padding-collapsing loop of `render`: drop a line when it is padding
and the line before it (in the uncollapsed list) can absorb it. -/
def collapseGo (prev : DiagnosticRenderLine) :
    List DiagnosticRenderLine → List DiagnosticRenderLine
  | [] => []
  | x :: xs =>
      (if x.is_padding && prev.can_collapse_padding then [] else [x])
        ++ collapseGo x xs

def collapseLines : List DiagnosticRenderLine → List DiagnosticRenderLine
  | [] => []
  | x :: xs => x :: collapseGo x xs

def natText (n : Nat) : Text := (toString n).toList

def spaces (n : Nat) : Text := List.replicate n ' '

/-- `DiagWriter::write_error`. -/
def write_error (msg : Text) : Text :=
  RED_FG ++ BOLD ++ "error".toList ++ RESET ++ BOLD ++ ": ".toList ++ msg
    ++ RESET ++ ['\n']

/-- `DiagWriter::write_source_pos`. -/
def write_source_pos (src : RSource) (pos gw : Nat) : Option Text := do
  let col ← col_of src.text pos
  some (spaces gw ++ BLUE_FG ++ BOLD ++ "-->".toList ++ RESET ++ [' ']
    ++ src.filename ++ [':'] ++ natText (line_of (computeNewlines src.text) pos)
    ++ [':'] ++ natText col ++ ['\n'])

/-- `DiagWriter::write_padding`. -/
def write_padding (gw : Nat) : Text :=
  spaces gw ++ BLUE_FG ++ BOLD ++ " |".toList ++ RESET ++ ['\n']

/-- `DiagWriter::write_code`.  The `{0:1$}` format right-aligns the line
number in a field of width `gw`. -/
def write_code (src : RSource) (line gw : Nat) : Option Text := do
  let line_span ← span_of_line src.text line
  let codeText := text_of_span src.text line_span
  some (BLUE_FG ++ BOLD ++ spaces (gw - (natText line).length)
    ++ natText line ++ " |".toList ++ RESET ++ [' '] ++ codeText ++ ['\n'])

/-- `DiagWriter::write_highlight`, including its single-line assert. -/
def write_highlight (src : RSource) (sp : Span) (gw : Nat) (msg : Text) :
    Option Text := do
  if line_of (computeNewlines src.text) sp.start
      = line_of (computeNewlines src.text) sp.stop then
    let col ← col_of src.text sp.start
    let offset := col - 1
    let len := (text_of_span src.text sp).length
    let highlight_text := List.replicate len '^'
    some (spaces gw ++ BLUE_FG ++ BOLD ++ " | ".toList ++ RESET
      ++ spaces offset ++ RED_FG ++ BOLD ++ highlight_text ++ [' '] ++ msg
      ++ RESET ++ ['\n'])
  else none

def renderLine (src : RSource) (gw : Nat) :
    DiagnosticRenderLine → Option Text
  | .SourcePos pos => write_source_pos src pos gw
  | .Padding => some (write_padding gw)
  | .CodeLine line => write_code src line gw
  | .Highlight sp msg => write_highlight src sp gw msg

/-- `render::render` (with `DiagWriter::new_ansi`): sort the parts by span
start, assemble the logical lines, collapse padding, and emit the formatted
report. -/
def render (diag : Diagnostic) (src : RSource) : Option Text := do
  let parts := List.insertionSort partStartLe diag.parts
  let all_lines ← parts.mapM (partLines src.text)
  let lines := collapseLines all_lines.flatten
  let gutter_width := (lines.map DiagnosticRenderLine.gutter_width).foldl max 0
  let rendered ← lines.mapM (renderLine src gutter_width)
  some (write_error diag.msg ++ rendered.flatten)

/-- The token-tree output of lexing the one-character text `"x"`; used to
exercise `sync_to` on a concrete, lexer-produced input. -/
def xTokens : List TokenTree :=
  [.Leaf ⟨.Ident, ⟨0, 1⟩⟩, .Leaf ⟨.EOF, ⟨1, 1⟩⟩]

def TokenTree.isAnyErrorLeaf : TokenTree → Bool
  | .Leaf t => match t.ty with | .Error _ => true | _ => false
  | .Node _ _ _ _ => false

/-- The spans a delimiter-stack frame contributes, in source order: its
pending sibling trees followed by its opening delimiter. -/
def frameSpans (f : Frame) : List Span :=
  f.tokens.map treeSpan ++ [f.span]

/-- The spans of everything the lexer has emitted or stacked so far, in
source order: each stack frame's contribution from outermost to innermost,
then the current token list. -/
def skeleton (stack : List Frame) (tokens : List TokenTree) : List Span :=
  (stack.reverse.map frameSpans).flatten ++ tokens.map treeSpan

/-! # Theorems -/

/-! ## Basic facts about byte lengths and boundaries -/

@[simp] theorem utf8Length_nil : utf8Length [] = 0 := rfl

@[simp] theorem utf8Length_cons (c : Char) (t : Text) :
    utf8Length (c :: t) = c.utf8Size + utf8Length t := rfl

@[simp] theorem utf8Length_append (s t : Text) :
    utf8Length (s ++ t) = utf8Length s + utf8Length t := by
  induction s with
  | nil => simp
  | cons c s ih => simp [ih, Nat.add_assoc]

theorem boundary_iff (t : Text) (b : Nat) :
    Boundary t b ↔ ∃ p s, t = p ++ s ∧ utf8Length p = b := by
  induction t generalizing b with
  | nil =>
    simp only [Boundary, boundaries, List.mem_singleton]
    constructor
    · rintro rfl; exact ⟨[], [], rfl, rfl⟩
    · rintro ⟨p, s, hps, hlen⟩
      have hp : p = [] := by
        cases p with
        | nil => rfl
        | cons a q => exact absurd hps (by simp)
      subst hp; simpa using hlen.symm
  | cons c t ih =>
    simp only [Boundary, boundaries, List.mem_cons, List.mem_map]
    constructor
    · rintro (rfl | ⟨b', hb', rfl⟩)
      · exact ⟨[], c :: t, rfl, rfl⟩
      · obtain ⟨p, s, rfl, rfl⟩ := (ih b').mp hb'
        exact ⟨c :: p, s, rfl, by simp [Nat.add_comm]⟩
    · rintro ⟨p, s, hps, rfl⟩
      cases p with
      | nil => exact Or.inl rfl
      | cons a q =>
        have hc : a = c := by simpa using (congrArg (List.head? ·) hps).symm
        have ht : t = q ++ s := by simpa using congrArg (List.tail ·) hps
        subst hc
        refine Or.inr ⟨utf8Length q, (ih _).mpr ⟨q, s, ht, rfl⟩, by
          simp [Nat.add_comm]⟩

theorem boundary_zero (t : Text) : Boundary t 0 :=
  (boundary_iff t 0).mpr ⟨[], t, rfl, rfl⟩

theorem boundary_utf8Length (t : Text) : Boundary t (utf8Length t) :=
  (boundary_iff t _).mpr ⟨t, [], by simp, rfl⟩

/-! ## C1: `sync_to` never advances the cursor -/

/-- C1: the claim asserts that the top-level declaration loop always makes
forward progress, in particular that after any `sync_to` pass the cursor
position is strictly greater than before or was already at end-of-input.
The code violates this: `sync_to`'s loop body is empty, so whenever the
guard holds (not at end-of-input and the current tree's type is not in the
synchronization set) the loop re-tests the same unchanged cursor forever.
This theorem shows that under exactly that guard the loop fails to
terminate at every fuel amount, with the cursor never advancing. -/
theorem sync_to_never_advances (c : PCursor) (sync : List TreeTy)
    (h : c.syncGuard sync = true) :
    ∀ fuel, sync_toFuel sync fuel c = none := by
  intro fuel
  induction fuel with
  | zero => rfl
  | succ n ih => simp only [sync_toFuel, h, if_true, ih]

/-- C1 witness: lexing the source `"x"` yields an identifier that is not in
the `[fn]` synchronization set, and `sync_to` diverges on it. -/
theorem sync_to_never_advances_witness :
    get_tokens ['x'] = some xTokens ∧
      sync_toFuel [.tok .Fn] 1000 ⟨xTokens, 0⟩ = none :=
  ⟨rfl, sync_to_never_advances ⟨xTokens, 0⟩ [.tok .Fn] (by decide) 1000⟩

/-! ## C2: the lexer spins on an unterminated `//` comment -/

theorem skipCommentFuel_none_of_nil (c : LexCursor) (hr : c.remaining = []) :
    ∀ fuel, skipCommentFuel fuel c = none := by
  intro fuel
  induction fuel with
  | zero => rfl
  | succ n ih =>
      simp only [skipCommentFuel, LexCursor.peekIs, LexCursor.peek,
        LexCursor.pop, hr, List.head?]
      exact ih

/-- C2: the claim asserts the scan terminates on every source text,
including one ending in a `//` comment with no terminating newline.  The
code violates this: the comment loop `while !cursor.peek_is('\n')` keeps
calling `pop` at end of input, which returns `None` without advancing, so
the loop never exits.  On the input `"//a"` the comment loop (entered with
the two slashes consumed and `a` remaining) runs out of any amount of
fuel, and the whole scan produces no output. -/
theorem lexer_unterminated_comment_diverges :
    (∀ fuel, skipCommentFuel fuel ⟨['a'], 2, 0, ['/', '/']⟩ = none) ∧
      get_tokens ('/' :: '/' :: 'a' :: []) = none := by
  refine ⟨?_, rfl⟩
  intro fuel
  match fuel with
  | 0 => rfl
  | n + 1 =>
      have h1 : skipCommentFuel (n + 1) ⟨['a'], 2, 0, ['/', '/']⟩
          = skipCommentFuel n ⟨[], 3, 0, ['/', '/', 'a']⟩ := rfl
      rw [h1]
      exact skipCommentFuel_none_of_nil _ rfl n

/-! ## C3: error harvesting panics on three of the four error reasons -/

/-- C3: the claim asserts that the harvesting pass maps each of the four
error reasons to one fixed diagnostic template without panicking.  The code
violates this: `find_errors` only implements the illegal-character arm; the
unmatched-opening, unmatched-closing and mismatched-delimiter arms are
`todo!()` macros, which panic (the corresponding templates exist, unused,
in `diagnostics/specifics.rs`).  On the input `"}"` the tree contains an
unmatched-closing error leaf, harvesting panics, and `lex_source` returns
neither tokens nor diagnostics. -/
theorem find_errors_panics_on_unmatched_close :
    get_tokens ['}']
        = some [.Leaf ⟨.Error .UnmatchedCloseParen, ⟨0, 1⟩⟩,
                .Leaf ⟨.EOF, ⟨1, 1⟩⟩] ∧
      hasErrorLeaf [.Leaf ⟨.Error .UnmatchedCloseParen, ⟨0, 1⟩⟩,
                .Leaf ⟨.EOF, ⟨1, 1⟩⟩] = true ∧
      find_errors ['}'] [.Leaf ⟨.Error .UnmatchedCloseParen, ⟨0, 1⟩⟩,
                .Leaf ⟨.EOF, ⟨1, 1⟩⟩] = none ∧
      lex_source ['}'] = none := by
  have h1 : get_tokens ['}']
      = some [.Leaf ⟨.Error .UnmatchedCloseParen, ⟨0, 1⟩⟩,
              .Leaf ⟨.EOF, ⟨1, 1⟩⟩] := rfl
  refine ⟨h1, by simp [hasErrorLeaf], by simp [find_errors], ?_⟩
  simp [lex_source, h1, find_errors]

/-! ## C7: lexing `"}"` -/

/-- C7: lexing the one-character input `"}"` yields (besides the final
`EOF` leaf) a single top-level error leaf whose reason is unmatched closing
delimiter, and zero nested nodes. -/
theorem lex_unmatched_close_scenario :
    get_tokens ['}']
        = some [.Leaf ⟨.Error .UnmatchedCloseParen, ⟨0, 1⟩⟩,
                .Leaf ⟨.EOF, ⟨1, 1⟩⟩] ∧
      ([TokenTree.Leaf ⟨.Error .UnmatchedCloseParen, ⟨0, 1⟩⟩,
        TokenTree.Leaf ⟨.EOF, ⟨1, 1⟩⟩].countP TokenTree.isAnyErrorLeaf = 1) ∧
      ([TokenTree.Leaf ⟨.Error .UnmatchedCloseParen, ⟨0, 1⟩⟩,
        TokenTree.Leaf ⟨.EOF, ⟨1, 1⟩⟩].countP
          (TokenTree.isErrorLeaf .UnmatchedCloseParen) = 1) ∧
      ([TokenTree.Leaf ⟨.Error .UnmatchedCloseParen, ⟨0, 1⟩⟩,
        TokenTree.Leaf ⟨.EOF, ⟨1, 1⟩⟩].countP TokenTree.isNode = 0) :=
  ⟨rfl, rfl, rfl, rfl⟩

/-! ## C4: the mismatched-delimiter error leaf -/

/-- C4 counterexample: on the input `"(]"` the node is built and an error
leaf with the mismatched-delimiter reason is appended as its last child,
but that leaf spans the closing delimiter (bytes 1..2) and carries the
closing delimiter's kind — not the span of the original opening delimiter
(bytes 0..1) the claim requires (the `MismatchedParenTy` payload has no
span field at all). -/
theorem mismatched_span_counterexample :
    get_tokens ['(', ']']
        = some [.Node .Paren ⟨0, 1⟩ ⟨1, 2⟩
                  [.Leaf ⟨.Error (.MismatchedParenTy .Square), ⟨1, 2⟩⟩],
                .Leaf ⟨.EOF, ⟨2, 2⟩⟩] ∧
      (Span.mk 1 2) ≠ (Span.mk 0 1) :=
  ⟨rfl, by decide⟩

/-- C4 (amended): whenever a closing delimiter's kind differs from the
popped opener's kind, the lexer still builds the nested node and appends
exactly one error-tagged leaf as the last of its children, whose error
reason is mismatched delimiter carrying the *closing* delimiter's kind and
whose span is the *closing* delimiter's span. -/
theorem mismatched_close_builds_node (fuel : Nat) (cursor : LexCursor)
    (stack : List Frame) (tokens : List TokenTree) (next : Char)
    (rest : Text) (frame : Frame) (stackRest : List Frame)
    (hr : cursor.remaining = next :: rest)
    (hc : next = ')' ∨ next = '}' ∨ next = ']')
    (hstack : stack = frame :: stackRest)
    (hmis : frame.ty ≠ ParenType.new_from_char next) :
    getTokensFuel (fuel + 1) cursor stack tokens =
      getTokensFuel fuel
        ⟨rest, cursor.byteOffset + next.utf8Size,
          cursor.byteOffset + next.utf8Size, []⟩
        stackRest
        (frame.tokens ++ [TokenTree.Node frame.ty frame.span
          ⟨cursor.spanOffset, cursor.spanOffset
            + utf8Length (cursor.pending ++ [next])⟩
          (tokens ++ [TokenTree.Leaf
            ⟨.Error (.MismatchedParenTy (ParenType.new_from_char next)),
             ⟨cursor.spanOffset, cursor.spanOffset
               + utf8Length (cursor.pending ++ [next])⟩⟩])]) := by
  subst hstack
  rcases hc with rfl | rfl | rfl <;>
    simp [getTokensFuel, LexCursor.pop, hr, LexCursor.popped_as_span, hmis]

/-- C4 witness: the amended step, instantiated at the `]` of `"(]"`. -/
theorem mismatched_close_builds_node_witness :
    getTokensFuel 6 ⟨[']'], 1, 1, []⟩ [⟨.Paren, ⟨0, 1⟩, []⟩] [] =
      getTokensFuel 5 ⟨[], 2, 2, []⟩ []
        [TokenTree.Node .Paren ⟨0, 1⟩ ⟨1, 2⟩
          [.Leaf ⟨.Error (.MismatchedParenTy .Square), ⟨1, 2⟩⟩]] := by
  have h := mismatched_close_builds_node 5 ⟨[']'], 1, 1, []⟩
    [⟨.Paren, ⟨0, 1⟩, []⟩] [] ']' [] ⟨.Paren, ⟨0, 1⟩, []⟩ []
    rfl (by decide) rfl (by decide)
  simpa using h

/-! ## C5: `line_of` counts the newline offsets below the position -/

theorem newlineOffsets_bounds (t : Text) (ofs : Nat) :
    ∀ e ∈ newlineOffsets t ofs, ofs ≤ e ∧ e < ofs + utf8Length t := by
  induction t generalizing ofs with
  | nil => intro e he; simp [newlineOffsets] at he
  | cons c t ih =>
    intro e he
    simp only [newlineOffsets, List.mem_append] at he
    have hsz : 0 < c.utf8Size := Char.utf8Size_pos c
    rcases he with he | he
    · by_cases h : c = '\n'
      · rw [if_pos h] at he
        simp only [List.mem_singleton] at he
        subst he
        refine ⟨Nat.le_refl _, ?_⟩
        simp only [utf8Length_cons]
        omega
      · simp [h] at he
    · have := ih (ofs + c.utf8Size) e he
      refine ⟨by omega, ?_⟩
      simp only [utf8Length_cons]
      omega

theorem newlineOffsets_sorted (t : Text) (ofs : Nat) :
    (newlineOffsets t ofs).Pairwise (· < ·) := by
  induction t generalizing ofs with
  | nil => simp [newlineOffsets]
  | cons c t ih =>
    have hsz : 0 < c.utf8Size := Char.utf8Size_pos c
    simp only [newlineOffsets]
    refine List.pairwise_append.mpr ⟨?_, ih _, ?_⟩
    · by_cases h : c = '\n' <;> simp [h]
    · intro a ha b hb
      have hblo := (newlineOffsets_bounds t (ofs + c.utf8Size) b hb).1
      have : a = ofs := by
        by_cases h : c = '\n' <;> simp [h] at ha; exact ha
      omega

theorem computeNewlines_sorted (text : Text) :
    (computeNewlines text).Pairwise (· < ·) := by
  unfold computeNewlines
  by_cases h : text.getLast? = some '\n'
  · simp [h, newlineOffsets_sorted]
  · rw [if_neg h]
    refine List.pairwise_append.mpr ⟨newlineOffsets_sorted _ _, by simp, ?_⟩
    intro a ha b hb
    simp only [List.mem_singleton] at hb; subst hb
    have := (newlineOffsets_bounds text 0 a ha).2
    omega

/-- In a strictly sorted list, an element is below `x` exactly when its index
is below the number of elements below `x`. -/
theorem countP_boundary (x : Nat) :
    ∀ (l : List Nat), l.Pairwise (· < ·) →
      ∀ i v, l.get? i = some v →
        (v < x ↔ i < l.countP (fun o => decide (o < x))) := by
  intro l
  induction l with
  | nil => intro _ i v h; simp at h
  | cons a t ih =>
    intro hp i v h
    have ha : ∀ b ∈ t, a < b := fun b hb => List.rel_of_pairwise_cons hp hb
    have ht : t.Pairwise (· < ·) := hp.of_cons
    rw [List.countP_cons]
    by_cases hax : a < x
    · have hd : decide (a < x) = true := by simpa using hax
      rw [hd, if_pos rfl]
      cases i with
      | zero =>
        simp only [List.get?_cons_zero, Option.some_inj] at h
        subst h
        constructor
        · intro _; omega
        · intro _; exact hax
      | succ i =>
        simp only [List.get?_cons_succ] at h
        have := ih ht i v h
        omega
    · have hd : decide (a < x) = false := by simpa using hax
      have hct : t.countP (fun o => decide (o < x)) = 0 := by
        rw [List.countP_eq_zero]
        intro b hb
        have hab := ha b hb
        simpa using (by omega : ¬ b < x)
      rw [hd, if_neg Bool.false_ne_true, Nat.add_zero, hct]
      cases i with
      | zero =>
        simp only [List.get?_cons_zero, Option.some_inj] at h
        subst h
        constructor
        · intro hvx; exact absurd hvx hax
        · intro h0; exact absurd h0 (Nat.not_lt_zero _)
      | succ i =>
        simp only [List.get?_cons_succ] at h
        have hv : a < v := ha v (List.get?_mem h)
        constructor
        · intro hvx; exact absurd (Nat.lt_trans hv hvx) hax
        · intro hlt; exact absurd hlt (Nat.not_lt_zero _)

/-- The index returned by a successful search in a strictly sorted list. -/
theorem sorted_index_eq_countP (l : List Nat) (hs : l.Pairwise (· < ·))
    (i b : Nat) (h : l.get? i = some b) :
    i = l.countP (fun o => decide (o < b)) := by
  set cnt := l.countP (fun o => decide (o < b)) with hcnt
  have h1 : ¬ i < cnt := by
    intro hlt
    have := (countP_boundary b l hs i b h).mpr hlt
    omega
  have h2 : ¬ cnt < i := by
    intro hlt
    obtain ⟨hilen, hgi⟩ := List.get?_eq_some.mp h
    have hclen : cnt < l.length := Nat.lt_trans hlt hilen
    have hw : l.get? cnt = some (l.get ⟨cnt, hclen⟩) := List.get?_eq_get hclen
    have hwb : l.get ⟨cnt, hclen⟩ < b := by
      have hpg := List.pairwise_iff_get.mp hs ⟨cnt, hclen⟩ ⟨i, hilen⟩ hlt
      rw [hgi] at hpg
      exact hpg
    have := (countP_boundary b l hs cnt _ hw).mp hwb
    omega
  omega

theorem binarySearchGo_spec (l : List Nat) (x : Nat)
    (hs : l.Pairwise (· < ·)) :
    ∀ fuel left right, right ≤ l.length → right - left < fuel →
      left ≤ l.countP (fun o => decide (o < x)) →
      l.countP (fun o => decide (o < x)) ≤ right →
      binarySearchGo l x fuel left right
          = .inr (l.countP (fun o => decide (o < x))) ∨
        (binarySearchGo l x fuel left right
            = .inl (l.countP (fun o => decide (o < x))) ∧
          l.get? (l.countP (fun o => decide (o < x))) = some x) := by
  intro fuel
  induction fuel with
  | zero => intro left right _ hf _ _; omega
  | succ n ih =>
    intro left right hlen hf hlo hhi
    set cnt := l.countP (fun o => decide (o < x)) with hcnt
    by_cases h : left < right
    · have hdiv : (right - left) / 2 < right - left :=
        Nat.div_lt_self (by omega) (by omega)
      set mid := left + (right - left) / 2 with hmid
      have hmlt : mid < right := by omega
      have hmlen : mid < l.length := Nat.lt_of_lt_of_le hmlt hlen
      have hget : l.get? mid = some (l.get ⟨mid, hmlen⟩) :=
        List.get?_eq_get hmlen
      set v := l.get ⟨mid, hmlen⟩ with hv
      have hgetD : l.getD mid 0 = v := by
        unfold List.getD
        rw [hget]
        rfl
      have hiff := countP_boundary x l hs mid v hget
      by_cases hvx : v < x
      · have hcm : mid < cnt := hiff.mp hvx
        have step : binarySearchGo l x (n + 1) left right
            = binarySearchGo l x n (mid + 1) right := by
          simp only [binarySearchGo, if_pos h, hmid.symm, hgetD, if_pos hvx]
        rw [step]
        exact ih (mid + 1) right hlen (by omega) (by omega) hhi
      · by_cases hxv : x < v
        · have hcm : cnt ≤ mid := by
            have := hiff.not.mp (by omega)
            omega
          have step : binarySearchGo l x (n + 1) left right
              = binarySearchGo l x n left mid := by
            simp only [binarySearchGo, if_pos h, hmid.symm, hgetD,
              if_neg hvx, if_pos hxv]
          rw [step]
          exact ih left mid (Nat.le_of_lt hmlen) (by omega) hlo hcm
        · have hveq : v = x := by omega
          have hmc : mid = cnt := by
            rw [hcnt, ← hveq]
            exact sorted_index_eq_countP l hs mid v hget
          have step : binarySearchGo l x (n + 1) left right = .inl mid := by
            simp only [binarySearchGo, if_pos h, hmid.symm, hgetD,
              if_neg hvx, if_neg hxv]
          refine Or.inr ⟨by rw [step, hmc], ?_⟩
          rw [← hmc, hget, hveq]
    · have : left = cnt := by omega
      subst this
      left
      simp only [binarySearchGo, if_neg h]

theorem line_of_eq_countP (l : List Nat) (hs : l.Pairwise (· < ·)) (x : Nat) :
    line_of l x = l.countP (fun o => decide (o < x)) + 1 := by
  have := binarySearchGo_spec l x hs (l.length + 1) 0 l.length
    (Nat.le_refl _) (by omega) (Nat.zero_le _) (List.countP_le_length _)
  unfold line_of binarySearch
  rcases this with h | ⟨h, _⟩ <;> rw [h]

/-- C5: for every source text and byte offset `b` on a UTF-8 boundary,
`line_of` returns one plus the number of recorded newline offsets strictly
below `b` (the binary search resolves both its `Ok` and its `Err` outcome
to that value); in particular a position exactly on the `i`-th recorded
newline offset (0-indexed) resolves to line `i + 1`, the line that newline
ends. -/
theorem line_of_counts_newlines (text : Text) (b : Nat)
    (hb : Boundary text b) :
    line_of (computeNewlines text) b
        = 1 + (computeNewlines text).countP (fun o => decide (o < b)) ∧
      ∀ i, (computeNewlines text).get? i = some b →
        line_of (computeNewlines text) b = i + 1 := by
  have hs := computeNewlines_sorted text
  constructor
  · rw [line_of_eq_countP _ hs, Nat.add_comm]
  · intro i hi
    rw [line_of_eq_countP _ hs,
      ← sorted_index_eq_countP _ hs i b hi]

/-- C5 witness: in `"ab\ncd"` (newline offsets `[2, 5]`), position 3 is on
line 2 and position 2 (the newline itself) is on line 1. -/
theorem line_of_counts_newlines_witness :
    Boundary "ab\ncd".toList 3 ∧
      (line_of (computeNewlines "ab\ncd".toList) 3
          = 1 + (computeNewlines "ab\ncd".toList).countP
              (fun o => decide (o < 3)) ∧
        ∀ i, (computeNewlines "ab\ncd".toList).get? i = some 3 →
          line_of (computeNewlines "ab\ncd".toList) 3 = i + 1) :=
  ⟨by decide, line_of_counts_newlines "ab\ncd".toList 3 (by decide)⟩

/-! ## C10: `span_of_line` panics exactly outside the newline index -/

theorem newlineOffsets_mem (t : Text) (ofs e : Nat) :
    e ∈ newlineOffsets t ofs
      ↔ ∃ p s, t = p ++ '\n' :: s ∧ e = ofs + utf8Length p := by
  induction t generalizing ofs with
  | nil =>
    simp only [newlineOffsets, List.not_mem_nil, false_iff]
    rintro ⟨p, s, hps, -⟩
    exact absurd hps (by simp)
  | cons c t ih =>
    simp only [newlineOffsets, List.mem_append]
    constructor
    · rintro (he | he)
      · by_cases h : c = '\n'
        · rw [if_pos h] at he
          simp only [List.mem_singleton] at he
          subst he h
          exact ⟨[], t, rfl, by simp⟩
        · simp [h] at he
      · obtain ⟨p, s, hps, hlen⟩ := (ih (ofs + c.utf8Size)).mp he
        exact ⟨c :: p, s, by simp [hps], by
          simp only [utf8Length_cons] at hlen ⊢
          omega⟩
    · rintro ⟨p, s, hps, rfl⟩
      cases p with
      | nil =>
        have hc : c = '\n' := by simpa using congrArg (List.head? ·) hps
        left
        rw [if_pos hc]
        simp
      | cons a q =>
        have hc : a = c := by simpa using (congrArg (List.head? ·) hps).symm
        have ht : t = q ++ '\n' :: s := by
          simpa using congrArg (List.tail ·) hps
        subst hc
        right
        refine (ih _).mpr ⟨q, s, ht, ?_⟩
        simp only [utf8Length_cons]
        omega

theorem computeNewlines_le (text : Text) :
    ∀ e ∈ computeNewlines text, e ≤ utf8Length text := by
  intro e he
  unfold computeNewlines at he
  by_cases h : text.getLast? = some '\n'
  · rw [if_pos h] at he
    have := (newlineOffsets_bounds text 0 e he).2
    omega
  · rw [if_neg h] at he
    rcases List.mem_append.mp he with he | he
    · have := (newlineOffsets_bounds text 0 e he).2
      omega
    · simp only [List.mem_singleton] at he
      omega

theorem computeNewlines_real (text : Text) (e : Nat)
    (he : e ∈ computeNewlines text) (hlt : e < utf8Length text) :
    ∃ p s, text = p ++ '\n' :: s ∧ e = utf8Length p := by
  unfold computeNewlines at he
  by_cases h : text.getLast? = some '\n'
  · rw [if_pos h] at he
    obtain ⟨p, s, hps, hlen⟩ := (newlineOffsets_mem text 0 e).mp he
    exact ⟨p, s, hps, by omega⟩
  · rw [if_neg h] at he
    rcases List.mem_append.mp he with he | he
    · obtain ⟨p, s, hps, hlen⟩ := (newlineOffsets_mem text 0 e).mp he
      exact ⟨p, s, hps, by omega⟩
    · simp only [List.mem_singleton] at he
      omega

theorem boundary_of_mem_newlines (text : Text) (e : Nat)
    (he : e ∈ computeNewlines text) : Boundary text e := by
  rcases Nat.lt_or_ge e (utf8Length text) with hlt | hge
  · obtain ⟨p, s, hps, rfl⟩ := computeNewlines_real text e he hlt
    exact (boundary_iff _ _).mpr ⟨p, '\n' :: s, hps, rfl⟩
  · have hle := computeNewlines_le text e he
    have : e = utf8Length text := by omega
    subst this
    exact boundary_utf8Length text

theorem boundary_succ_of_real (text p s : Text)
    (hps : text = p ++ '\n' :: s) :
    Boundary text (utf8Length p + 1) := by
  refine (boundary_iff _ _).mpr ⟨p ++ ['\n'], s, by simp [hps], ?_⟩
  have h1 : ('\n').utf8Size = 1 := by decide
  simp [h1]

theorem first_byte_of_line_one (N : List Nat) :
    first_byte_of_line N 1 = some 0 := rfl

theorem first_byte_of_line_ge_two (N : List Nat) (k : Nat) :
    first_byte_of_line N (k + 2) = (N.get? k).map (· + 1) := by
  simp [first_byte_of_line]

theorem Source.span_some (text : Text) (start stop : Nat)
    (h1 : Boundary text start) (h2 : Boundary text stop)
    (h3 : start ≤ stop) :
    Source.span text start stop = some ⟨start, stop⟩ := by
  unfold Source.span
  rw [if_pos ⟨h1, h2, h3⟩]

/-- The successful path of `span_of_line`: with a valid 1-indexed line, the
returned span runs from the line's first byte to just before the line's
recorded newline offset. -/
theorem span_of_line_eq_of_get (text : Text) (line e : Nat)
    (h1 : 1 ≤ line)
    (he : (computeNewlines text).get? (line - 1) = some e) :
    ∃ st, first_byte_of_line (computeNewlines text) line = some st ∧
      span_of_line text line = some ⟨st, e⟩ := by
  set N := computeNewlines text with hN
  have hs := computeNewlines_sorted text
  match line, h1 with
  | 1, _ =>
      simp only [Nat.sub_self] at he
      have heB : Boundary text e :=
        boundary_of_mem_newlines text e (List.get?_mem he)
      refine ⟨0, rfl, ?_⟩
      have hspan := Source.span_some text 0 e (boundary_zero text) heB
        (Nat.zero_le e)
      simp [span_of_line, first_byte_of_line_one, ← hN,
        first_byte_of_line_ge_two, ← List.get?_eq_getElem?, he, hspan]
  | k + 2, _ =>
      have hke : N.get? (k + 1) = some e := by
        simpa using he
      have hlen1 : k + 1 < N.length := (List.get?_eq_some.mp hke).1
      have hlenk : k < N.length := by omega
      have hgk : N.get? k = some (N.get ⟨k, hlenk⟩) := List.get?_eq_get hlenk
      set ek := N.get ⟨k, hlenk⟩ with hek
      have heke : ek < e := by
        have hpg := List.pairwise_iff_get.mp hs ⟨k, hlenk⟩ ⟨k + 1, hlen1⟩
          (by simp)
        obtain ⟨_, hgi⟩ := List.get?_eq_some.mp hke
        rw [hgi] at hpg
        exact hpg
      have heL : e ≤ utf8Length text :=
        computeNewlines_le text e (List.get?_mem hke)
      have hekL : ek < utf8Length text := by omega
      obtain ⟨p, s, hps, hpe⟩ :=
        computeNewlines_real text ek (List.get?_mem hgk) hekL
      have hB1 : Boundary text (ek + 1) := by
        rw [hpe]
        exact boundary_succ_of_real text p s hps
      have hBe : Boundary text e :=
        boundary_of_mem_newlines text e (List.get?_mem hke)
      refine ⟨ek + 1, ?_, ?_⟩
      · rw [first_byte_of_line_ge_two, hgk]
        rfl
      · have hspan := Source.span_some text (ek + 1) e hB1 hBe (by omega)
        simp [span_of_line, ← hN, first_byte_of_line_ge_two,
          ← List.get?_eq_getElem?, hgk, hke, hspan]

theorem span_of_line_isSome_iff (text : Text) (line : Nat) :
    (span_of_line text line).isSome ↔
      1 ≤ line ∧ line ≤ (computeNewlines text).length := by
  set N := computeNewlines text with hN
  constructor
  · intro hsome
    by_contra hcon
    rcases Nat.lt_or_ge line 1 with h0 | h1
    · interval_cases line
      simp [span_of_line, first_byte_of_line] at hsome
    · have hgt : N.length < line := by omega
      match line, h1 with
      | 1, _ =>
          have hnil : N.get? 0 = none := by
            rw [List.get?_eq_none]
            omega
          simp [span_of_line, first_byte_of_line_one, ← hN,
            first_byte_of_line_ge_two, ← List.get?_eq_getElem?,
            hnil] at hsome
      | k + 2, _ =>
          rcases Nat.lt_or_ge k N.length with hk | hk
          · have hnil : N.get? (k + 1) = none := by
              rw [List.get?_eq_none]
              omega
            have hgk : N.get? k = some (N.get ⟨k, hk⟩) := List.get?_eq_get hk
            simp [span_of_line, ← hN, first_byte_of_line_ge_two,
              ← List.get?_eq_getElem?, hgk, hnil] at hsome
          · have hnil : N.get? k = none := by
              rw [List.get?_eq_none]
              omega
            simp [span_of_line, ← hN, first_byte_of_line_ge_two,
              ← List.get?_eq_getElem?, hnil] at hsome
  · rintro ⟨h1, h2⟩
    have hlt : line - 1 < N.length := by omega
    have hg : N.get? (line - 1) = some (N.get ⟨line - 1, hlt⟩) :=
      List.get?_eq_get hlt
    obtain ⟨st, -, hsp⟩ := span_of_line_eq_of_get text line _ h1 hg
    rw [hsp]
    rfl

/-- C10: `span_of_line(line)` returns a span (from the line's first byte to
just before the line's recorded newline offset) without panicking exactly
when `1 ≤ line ≤` the number of entries in the cached newline index; and
for a text ending in a newline, `line_of` maps the end-of-text position to
one line beyond that count, where `span_of_line` panics. -/
theorem span_of_line_spec (text : Text) (line : Nat) :
    ((span_of_line text line).isSome ↔
        1 ≤ line ∧ line ≤ (computeNewlines text).length) ∧
      (∀ e, 1 ≤ line → (computeNewlines text).get? (line - 1) = some e →
        ∃ st, first_byte_of_line (computeNewlines text) line = some st ∧
          span_of_line text line = some ⟨st, e⟩) ∧
      (text.getLast? = some '\n' →
        line_of (computeNewlines text) (utf8Length text)
            = (computeNewlines text).length + 1 ∧
          span_of_line text ((computeNewlines text).length + 1) = none) := by
  refine ⟨span_of_line_isSome_iff text line,
    fun e h1 he => span_of_line_eq_of_get text line e h1 he, ?_⟩
  intro hlast
  constructor
  · have hall : ∀ e ∈ computeNewlines text, e < utf8Length text := by
      intro e he
      unfold computeNewlines at he
      rw [if_pos hlast] at he
      have := (newlineOffsets_bounds text 0 e he).2
      omega
    have hcount : (computeNewlines text).countP
        (fun o => decide (o < utf8Length text))
        = (computeNewlines text).length := by
      rw [List.countP_eq_length]
      intro e he
      simpa using hall e he
    rw [line_of_eq_countP _ (computeNewlines_sorted text), hcount]
  · rcases hopt : span_of_line text ((computeNewlines text).length + 1)
      with _ | sp
    · rfl
    · exfalso
      have hsome : (span_of_line text
          ((computeNewlines text).length + 1)).isSome := by
        rw [hopt]; rfl
      have := (span_of_line_isSome_iff text _).mp hsome
      omega

/-- C10 witness: in `"ab\n"` (one recorded newline), line 1 has a span,
line 2 panics, and the end-of-text position maps to line 2. -/
theorem span_of_line_spec_witness :
    ((span_of_line "ab\n".toList 1).isSome ↔
        1 ≤ 1 ∧ 1 ≤ (computeNewlines "ab\n".toList).length) ∧
      "ab\n".toList.getLast? = some '\n' ∧
      line_of (computeNewlines "ab\n".toList) (utf8Length "ab\n".toList)
          = (computeNewlines "ab\n".toList).length + 1 ∧
      span_of_line "ab\n".toList
          ((computeNewlines "ab\n".toList).length + 1) = none :=
  ⟨(span_of_line_spec "ab\n".toList 1).1, by decide,
    ((span_of_line_spec "ab\n".toList 1).2.2 (by decide)).1,
    ((span_of_line_spec "ab\n".toList 1).2.2 (by decide)).2⟩

/-! ## Specifications of the lexer's inner loops -/

theorem skipDigitsFuel_spec :
    ∀ (fuel : Nat) (rem : Text) (bo so : Nat) (pend : Text),
      rem.length < fuel →
      skipDigitsFuel fuel ⟨rem, bo, so, pend⟩
        = ⟨rem.dropWhile Char.isDigit,
            bo + utf8Length (rem.takeWhile Char.isDigit), so,
            pend ++ rem.takeWhile Char.isDigit⟩ := by
  intro fuel
  induction fuel with
  | zero => intro rem bo so pend h; omega
  | succ n ih =>
    intro rem bo so pend h
    match rem with
    | [] => simp [skipDigitsFuel, LexCursor.pop]
    | ch :: rest =>
        by_cases hd : ch.isDigit
        · have hstep : skipDigitsFuel (n + 1) ⟨ch :: rest, bo, so, pend⟩
              = skipDigitsFuel n
                  ⟨rest, bo + ch.utf8Size, so, pend ++ [ch]⟩ := by
            simp [skipDigitsFuel, LexCursor.pop, hd]
          rw [hstep, ih rest _ _ _ (by simpa using h)]
          simp [List.takeWhile_cons, List.dropWhile_cons, hd, Nat.add_assoc]
        · have hstep : skipDigitsFuel (n + 1) ⟨ch :: rest, bo, so, pend⟩
              = ⟨ch :: rest, bo, so, pend⟩ := by
            simp [skipDigitsFuel, LexCursor.pop, hd]
          rw [hstep]
          simp [List.takeWhile_cons, List.dropWhile_cons, hd]

theorem skipIdentFuel_spec :
    ∀ (fuel : Nat) (rem : Text) (bo so : Nat) (pend : Text),
      rem.length < fuel →
      skipIdentFuel fuel ⟨rem, bo, so, pend⟩
        = ⟨rem.dropWhile char_can_continue_ident,
            bo + utf8Length (rem.takeWhile char_can_continue_ident), so,
            pend ++ rem.takeWhile char_can_continue_ident⟩ := by
  intro fuel
  induction fuel with
  | zero => intro rem bo so pend h; omega
  | succ n ih =>
    intro rem bo so pend h
    match rem with
    | [] => simp [skipIdentFuel, LexCursor.pop]
    | ch :: rest =>
        by_cases hd : char_can_continue_ident ch
        · have hstep : skipIdentFuel (n + 1) ⟨ch :: rest, bo, so, pend⟩
              = skipIdentFuel n
                  ⟨rest, bo + ch.utf8Size, so, pend ++ [ch]⟩ := by
            simp [skipIdentFuel, LexCursor.pop, hd]
          rw [hstep, ih rest _ _ _ (by simpa using h)]
          simp [List.takeWhile_cons, List.dropWhile_cons, hd, Nat.add_assoc]
        · have hstep : skipIdentFuel (n + 1) ⟨ch :: rest, bo, so, pend⟩
              = ⟨ch :: rest, bo, so, pend⟩ := by
            simp [skipIdentFuel, LexCursor.pop, hd]
          rw [hstep]
          simp [List.takeWhile_cons, List.dropWhile_cons, hd]

theorem skipCommentFuel_spec :
    ∀ (fuel : Nat) (rem : Text) (bo so : Nat) (pend : Text),
      rem.length < fuel →
      skipCommentFuel fuel ⟨rem, bo, so, pend⟩
        = if '\n' ∈ rem then
            some ⟨rem.dropWhile (· ≠ '\n'),
              bo + utf8Length (rem.takeWhile (· ≠ '\n')), so,
              pend ++ rem.takeWhile (· ≠ '\n')⟩
          else none := by
  intro fuel
  induction fuel with
  | zero => intro rem bo so pend h; omega
  | succ n ih =>
    intro rem bo so pend h
    match rem with
    | [] =>
        rw [if_neg (by simp)]
        exact skipCommentFuel_none_of_nil _ rfl (n + 1)
    | ch :: rest =>
        by_cases hd : ch = '\n'
        · subst hd
          have : skipCommentFuel (n + 1) ⟨'\n' :: rest, bo, so, pend⟩
              = some ⟨'\n' :: rest, bo, so, pend⟩ := by
            simp [skipCommentFuel, LexCursor.peekIs, LexCursor.peek]
          rw [this, if_pos (by simp)]
          simp [List.takeWhile_cons, List.dropWhile_cons]
        · have hstep : skipCommentFuel (n + 1) ⟨ch :: rest, bo, so, pend⟩
              = skipCommentFuel n
                  ⟨rest, bo + ch.utf8Size, so, pend ++ [ch]⟩ := by
            simp [skipCommentFuel, LexCursor.peekIs, LexCursor.peek,
              LexCursor.pop, hd]
          rw [hstep, ih rest _ _ _ (by simpa using h)]
          by_cases hm : '\n' ∈ rest
          · rw [if_pos hm, if_pos (by simp [hm])]
            simp [List.takeWhile_cons, List.dropWhile_cons, hd,
              Nat.add_assoc]
          · rw [if_neg hm, if_neg (by simp [hd, hm, eq_comm])]

theorem ident_token_ty_ne_eof (s : Text) : ident_token_ty s ≠ .EOF := by
  unfold ident_token_ty
  split_ifs <;> simp

theorem pop1_bytes (c : LexCursor) :
    c.pop1.byteOffset + utf8Length c.pop1.remaining
      = c.byteOffset + utf8Length c.remaining := by
  obtain ⟨rem, bo, so, pend⟩ := c
  match rem with
  | [] => rfl
  | ch :: rest =>
      show bo + ch.utf8Size + utf8Length rest = bo + utf8Length (ch :: rest)
      simp [Nat.add_assoc]

theorem skipDigits_bytes (c : LexCursor) :
    (skipDigits c).byteOffset + utf8Length (skipDigits c).remaining
      = c.byteOffset + utf8Length c.remaining := by
  obtain ⟨rem, bo, so, pend⟩ := c
  unfold skipDigits
  rw [skipDigitsFuel_spec _ rem bo so pend (Nat.lt_succ_self _)]
  show bo + utf8Length (rem.takeWhile Char.isDigit)
      + utf8Length (rem.dropWhile Char.isDigit) = bo + utf8Length rem
  rw [Nat.add_assoc, ← utf8Length_append, List.takeWhile_append_dropWhile]

theorem skipIdent_bytes (c : LexCursor) :
    (skipIdent c).byteOffset + utf8Length (skipIdent c).remaining
      = c.byteOffset + utf8Length c.remaining := by
  obtain ⟨rem, bo, so, pend⟩ := c
  unfold skipIdent
  rw [skipIdentFuel_spec _ rem bo so pend (Nat.lt_succ_self _)]
  show bo + utf8Length (rem.takeWhile char_can_continue_ident)
      + utf8Length (rem.dropWhile char_can_continue_ident)
      = bo + utf8Length rem
  rw [Nat.add_assoc, ← utf8Length_append, List.takeWhile_append_dropWhile]

theorem skipComment_bytes (c c' : LexCursor) (h : skipComment c = some c') :
    c'.byteOffset + utf8Length c'.remaining
      = c.byteOffset + utf8Length c.remaining := by
  obtain ⟨rem, bo, so, pend⟩ := c
  unfold skipComment at h
  rw [skipCommentFuel_spec _ rem bo so pend (Nat.lt_succ_self _)] at h
  by_cases hm : '\n' ∈ rem
  · rw [if_pos hm] at h
    obtain rfl := Option.some_injective _ h
    show bo + utf8Length (rem.takeWhile (· ≠ '\n'))
        + utf8Length (rem.dropWhile (· ≠ '\n')) = bo + utf8Length rem
    rw [Nat.add_assoc, ← utf8Length_append, List.takeWhile_append_dropWhile]
  · rw [if_neg hm] at h; exact absurd h (by simp)

theorem some_pair_inj {α β : Type _} {a o : α} {b c : β}
    (h : some (a, b) = some (o, c)) : o = a ∧ c = b := by
  injection h with h1
  exact ⟨(congrArg Prod.fst h1).symm, (congrArg Prod.snd h1).symm⟩

/-- Complete characterization of `next_leaf_ty`'s behaviour: the popped
character is whitespace (discarded), starts a `//` comment (discarded, or
non-terminating when no newline follows), is a delimiter (the
`unreachable!` panic), or extends to a leaf token that consumes `taken`
further characters and is never `EOF`. -/
theorem next_leaf_ty_spec (next : Char) (rem : Text) (bo so : Nat)
    (pend : Text) :
    (isAsciiWhitespace next = true ∧
      next_leaf_ty next ⟨rem, bo, so, pend⟩ = some (none, ⟨rem, bo, bo, []⟩)) ∨
    (next = '/' ∧ rem.head? = some '/' ∧ '\n' ∈ rem ∧
      next_leaf_ty next ⟨rem, bo, so, pend⟩ = some (none,
        ⟨rem.dropWhile (· ≠ '\n'),
         bo + utf8Length (rem.takeWhile (· ≠ '\n')),
         bo + utf8Length (rem.takeWhile (· ≠ '\n')), []⟩)) ∨
    (next = '/' ∧ rem.head? = some '/' ∧ '\n' ∉ rem ∧
      next_leaf_ty next ⟨rem, bo, so, pend⟩ = none) ∨
    ((next = '(' ∨ next = ')' ∨ next = '{' ∨ next = '}' ∨ next = '['
        ∨ next = ']') ∧
      next_leaf_ty next ⟨rem, bo, so, pend⟩ = none) ∨
    (∃ ty taken rem₂, ty ≠ TokenType.EOF ∧ rem = taken ++ rem₂ ∧
      next_leaf_ty next ⟨rem, bo, so, pend⟩
        = some (some ty, ⟨rem₂, bo + utf8Length taken, so, pend ++ taken⟩)) := by
  have leaf : ∀ (ty : TokenType) (taken rem₂ : Text), ty ≠ TokenType.EOF →
      rem = taken ++ rem₂ →
      next_leaf_ty next ⟨rem, bo, so, pend⟩
        = some (some ty, ⟨rem₂, bo + utf8Length taken, so, pend ++ taken⟩) →
      (isAsciiWhitespace next = true ∧
        next_leaf_ty next ⟨rem, bo, so, pend⟩
          = some (none, ⟨rem, bo, bo, []⟩)) ∨
      (next = '/' ∧ rem.head? = some '/' ∧ '\n' ∈ rem ∧
        next_leaf_ty next ⟨rem, bo, so, pend⟩ = some (none,
          ⟨rem.dropWhile (· ≠ '\n'),
           bo + utf8Length (rem.takeWhile (· ≠ '\n')),
           bo + utf8Length (rem.takeWhile (· ≠ '\n')), []⟩)) ∨
      (next = '/' ∧ rem.head? = some '/' ∧ '\n' ∉ rem ∧
        next_leaf_ty next ⟨rem, bo, so, pend⟩ = none) ∨
      ((next = '(' ∨ next = ')' ∨ next = '{' ∨ next = '}' ∨ next = '['
          ∨ next = ']') ∧
        next_leaf_ty next ⟨rem, bo, so, pend⟩ = none) ∨
      (∃ ty taken rem₂, ty ≠ TokenType.EOF ∧ rem = taken ++ rem₂ ∧
        next_leaf_ty next ⟨rem, bo, so, pend⟩
          = some (some ty,
              ⟨rem₂, bo + utf8Length taken, so, pend ++ taken⟩)) :=
    fun ty taken rem₂ h1 h2 h3 =>
      Or.inr (Or.inr (Or.inr (Or.inr ⟨ty, taken, rem₂, h1, h2, h3⟩)))
  by_cases h1 : isAsciiWhitespace next = true
  · exact Or.inl ⟨h1, by unfold next_leaf_ty; rw [if_pos h1]; rfl⟩
  · by_cases h2 : next = '/'
        ∧ (LexCursor.peekIs ⟨rem, bo, so, pend⟩ '/') = true
    · have hh : rem.head? = some '/' := by
        have := h2.2
        simpa [LexCursor.peekIs, LexCursor.peek] using this
      by_cases hm : '\n' ∈ rem
      · refine Or.inr (Or.inl ⟨h2.1, hh, hm, ?_⟩)
        unfold next_leaf_ty
        rw [if_neg h1, if_pos h2]
        have hsc : skipComment ⟨rem, bo, so, pend⟩
            = some ⟨rem.dropWhile (· ≠ '\n'),
                bo + utf8Length (rem.takeWhile (· ≠ '\n')), so,
                pend ++ rem.takeWhile (· ≠ '\n')⟩ := by
          unfold skipComment
          rw [skipCommentFuel_spec _ rem bo so pend (Nat.lt_succ_self _),
            if_pos hm]
        rw [hsc]
        rfl
      · refine Or.inr (Or.inr (Or.inl ⟨h2.1, hh, hm, ?_⟩))
        unfold next_leaf_ty
        rw [if_neg h1, if_pos h2]
        have hsc : skipComment ⟨rem, bo, so, pend⟩ = none := by
          unfold skipComment
          rw [skipCommentFuel_spec _ rem bo so pend (Nat.lt_succ_self _),
            if_neg hm]
        rw [hsc]
    · by_cases h3 : next.isDigit = true
      · refine leaf .IntLit (rem.takeWhile Char.isDigit)
          (rem.dropWhile Char.isDigit) (by simp)
          (Eq.symm (List.takeWhile_append_dropWhile _ _)) ?_
        unfold next_leaf_ty
        rw [if_neg h1, if_neg h2, if_pos h3]
        unfold skipDigits
        rw [skipDigitsFuel_spec _ rem bo so pend (Nat.lt_succ_self _)]
      · by_cases h4 : char_can_start_ident next = true
        · refine leaf
            (ident_token_ty (pend ++ rem.takeWhile char_can_continue_ident))
            (rem.takeWhile char_can_continue_ident)
            (rem.dropWhile char_can_continue_ident)
            (ident_token_ty_ne_eof _)
            (Eq.symm (List.takeWhile_append_dropWhile _ _)) ?_
          unfold next_leaf_ty
          rw [if_neg h1, if_neg h2, if_neg h3, if_pos h4]
          unfold skipIdent
          rw [skipIdentFuel_spec _ rem bo so pend (Nat.lt_succ_self _)]
          rfl
        · by_cases h5 : next = '+'
          · subst h5
            exact leaf .Plus [] rem (by simp) rfl (by
              simp [next_leaf_ty, isAsciiWhitespace, char_can_start_ident,
                utf8Length])
          · by_cases h6 : next = '-'
            · subst h6
              rcases rem with _ | ⟨c₀, r₂⟩
              · exact leaf .Minus [] [] (by simp) rfl (by
                  simp [next_leaf_ty, isAsciiWhitespace,
                    char_can_start_ident, LexCursor.peekIs, LexCursor.peek,
                    utf8Length])
              · by_cases hc : c₀ = '>'
                · subst hc
                  exact leaf .RArrow ['>'] r₂ (by simp) rfl (by
                    simp [next_leaf_ty, isAsciiWhitespace,
                      char_can_start_ident, LexCursor.peekIs,
                      LexCursor.peek, LexCursor.pop1, LexCursor.pop,
                      utf8Length])
                · exact leaf .Minus [] (c₀ :: r₂) (by simp) rfl (by
                    simp [next_leaf_ty, isAsciiWhitespace,
                      char_can_start_ident, LexCursor.peekIs,
                      LexCursor.peek, hc, utf8Length])
            · by_cases h7 : next = '*'
              · subst h7
                exact leaf .Mul [] rem (by simp) rfl (by
                  simp [next_leaf_ty, isAsciiWhitespace,
                    char_can_start_ident, utf8Length])
              · by_cases h8 : next = '/'
                · subst h8
                  rcases rem with _ | ⟨c₀, r₂⟩
                  · exact leaf .Div [] [] (by simp) rfl (by
                      simp [next_leaf_ty, isAsciiWhitespace,
                        char_can_start_ident, LexCursor.peekIs,
                        LexCursor.peek, utf8Length])
                  · have hc : ¬ (c₀ = '/') := fun hcc =>
                      h2 ⟨rfl, by
                        simp [LexCursor.peekIs, LexCursor.peek, hcc]⟩
                    exact leaf .Div [] (c₀ :: r₂) (by simp) rfl (by
                      simp [next_leaf_ty, isAsciiWhitespace,
                        char_can_start_ident, LexCursor.peekIs,
                        LexCursor.peek, hc, utf8Length])
                · by_cases h9 : next = '!'
                  · subst h9
                    rcases rem with _ | ⟨c₀, r₂⟩
                    · exact leaf .Not [] [] (by simp) rfl (by
                        simp [next_leaf_ty, isAsciiWhitespace,
                          char_can_start_ident, LexCursor.peekIs,
                          LexCursor.peek, utf8Length])
                    · by_cases hc : c₀ = '='
                      · subst hc
                        exact leaf .NotEq ['='] r₂ (by simp) rfl (by
                          simp [next_leaf_ty, isAsciiWhitespace,
                            char_can_start_ident, LexCursor.peekIs,
                            LexCursor.peek, LexCursor.pop1, LexCursor.pop,
                            utf8Length])
                      · exact leaf .Not [] (c₀ :: r₂) (by simp) rfl (by
                          simp [next_leaf_ty, isAsciiWhitespace,
                            char_can_start_ident, LexCursor.peekIs,
                            LexCursor.peek, hc, utf8Length])
                  · by_cases h10 : next = '|'
                    · subst h10
                      rcases rem with _ | ⟨c₀, r₂⟩
                      · exact leaf (.Error .IllegalChar) [] [] (by simp) rfl
                          (by simp [next_leaf_ty, isAsciiWhitespace,
                            char_can_start_ident, LexCursor.peekIs,
                            LexCursor.peek, utf8Length])
                      · by_cases hc : c₀ = '|'
                        · subst hc
                          exact leaf .OrOr ['|'] r₂ (by simp) rfl (by
                            simp [next_leaf_ty, isAsciiWhitespace,
                              char_can_start_ident, LexCursor.peekIs,
                              LexCursor.peek, LexCursor.pop1,
                              LexCursor.pop, utf8Length])
                        · exact leaf (.Error .IllegalChar) [] (c₀ :: r₂)
                            (by simp) rfl (by
                            simp [next_leaf_ty, isAsciiWhitespace,
                              char_can_start_ident, LexCursor.peekIs,
                              LexCursor.peek, hc, utf8Length])
                    · by_cases h11 : next = '&'
                      · subst h11
                        rcases rem with _ | ⟨c₀, r₂⟩
                        · exact leaf (.Error .IllegalChar) [] [] (by simp)
                            rfl (by
                            simp [next_leaf_ty, isAsciiWhitespace,
                              char_can_start_ident, LexCursor.peekIs,
                              LexCursor.peek, utf8Length])
                        · by_cases hc : c₀ = '&'
                          · subst hc
                            exact leaf .AndAnd ['&'] r₂ (by simp) rfl (by
                              simp [next_leaf_ty, isAsciiWhitespace,
                                char_can_start_ident, LexCursor.peekIs,
                                LexCursor.peek, LexCursor.pop1,
                                LexCursor.pop, utf8Length])
                          · exact leaf (.Error .IllegalChar) [] (c₀ :: r₂)
                              (by simp) rfl (by
                              simp [next_leaf_ty, isAsciiWhitespace,
                                char_can_start_ident, LexCursor.peekIs,
                                LexCursor.peek, hc, utf8Length])
                      · by_cases h12 : next = '='
                        · subst h12
                          rcases rem with _ | ⟨c₀, r₂⟩
                          · exact leaf .Eq [] [] (by simp) rfl (by
                              simp [next_leaf_ty, isAsciiWhitespace,
                                char_can_start_ident, LexCursor.peekIs,
                                LexCursor.peek, utf8Length])
                          · by_cases hc : c₀ = '='
                            · subst hc
                              exact leaf .EqEq ['='] r₂ (by simp) rfl (by
                                simp [next_leaf_ty, isAsciiWhitespace,
                                  char_can_start_ident, LexCursor.peekIs,
                                  LexCursor.peek, LexCursor.pop1,
                                  LexCursor.pop, utf8Length])
                            · exact leaf .Eq [] (c₀ :: r₂) (by simp) rfl (by
                                simp [next_leaf_ty, isAsciiWhitespace,
                                  char_can_start_ident, LexCursor.peekIs,
                                  LexCursor.peek, hc, utf8Length])
                        · by_cases h13 : next = '<'
                          · subst h13
                            rcases rem with _ | ⟨c₀, r₂⟩
                            · exact leaf .Lt [] [] (by simp) rfl (by
                                simp [next_leaf_ty, isAsciiWhitespace,
                                  char_can_start_ident, LexCursor.peekIs,
                                  LexCursor.peek, utf8Length])
                            · by_cases hc : c₀ = '='
                              · subst hc
                                exact leaf .Lte ['='] r₂ (by simp) rfl (by
                                  simp [next_leaf_ty, isAsciiWhitespace,
                                    char_can_start_ident, LexCursor.peekIs,
                                    LexCursor.peek, LexCursor.pop1,
                                    LexCursor.pop, utf8Length])
                              · exact leaf .Lt [] (c₀ :: r₂) (by simp) rfl
                                  (by
                                  simp [next_leaf_ty, isAsciiWhitespace,
                                    char_can_start_ident, LexCursor.peekIs,
                                    LexCursor.peek, hc, utf8Length])
                          · by_cases h14 : next = '>'
                            · subst h14
                              rcases rem with _ | ⟨c₀, r₂⟩
                              · exact leaf .Gt [] [] (by simp) rfl (by
                                  simp [next_leaf_ty, isAsciiWhitespace,
                                    char_can_start_ident, LexCursor.peekIs,
                                    LexCursor.peek, utf8Length])
                              · by_cases hc : c₀ = '='
                                · subst hc
                                  exact leaf .Gte ['='] r₂ (by simp) rfl
                                    (by
                                    simp [next_leaf_ty, isAsciiWhitespace,
                                      char_can_start_ident,
                                      LexCursor.peekIs, LexCursor.peek,
                                      LexCursor.pop1, LexCursor.pop,
                                      utf8Length])
                                · exact leaf .Gt [] (c₀ :: r₂) (by simp)
                                    rfl (by
                                    simp [next_leaf_ty, isAsciiWhitespace,
                                      char_can_start_ident,
                                      LexCursor.peekIs, LexCursor.peek, hc,
                                      utf8Length])
                            · by_cases h15 : next = ';'
                              · subst h15
                                exact leaf .Semicolon [] rem (by simp) rfl
                                  (by
                                  simp [next_leaf_ty, isAsciiWhitespace,
                                    char_can_start_ident, utf8Length])
                              · by_cases h16 : next = ':'
                                · subst h16
                                  exact leaf .Colon [] rem (by simp) rfl
                                    (by
                                    simp [next_leaf_ty, isAsciiWhitespace,
                                      char_can_start_ident, utf8Length])
                                · by_cases h17 : next = ','
                                  · subst h17
                                    exact leaf .Comma [] rem (by simp) rfl
                                      (by
                                      simp [next_leaf_ty,
                                        isAsciiWhitespace,
                                        char_can_start_ident, utf8Length])
                                  · by_cases h18 : next = '(' ∨ next = ')'
                                        ∨ next = '{' ∨ next = '}'
                                        ∨ next = '[' ∨ next = ']'
                                    · refine Or.inr (Or.inr (Or.inr
                                        (Or.inl ⟨h18, ?_⟩)))
                                      unfold next_leaf_ty
                                      rw [if_neg h1, if_neg h2, if_neg h3,
                                        if_neg h4, if_neg h5,
                                        if_neg (fun hand => h6 hand.1),
                                        if_neg h6, if_neg h7, if_neg h8,
                                        if_neg (fun hand => h9 hand.1),
                                        if_neg h9,
                                        if_neg (fun hand => h10 hand.1),
                                        if_neg (fun hand => h11 hand.1),
                                        if_neg (fun hand => h12 hand.1),
                                        if_neg h12,
                                        if_neg (fun hand => h13 hand.1),
                                        if_neg h13,
                                        if_neg (fun hand => h14 hand.1),
                                        if_neg h14, if_neg h15, if_neg h16,
                                        if_neg h17, if_pos h18]
                                    · refine leaf (.Error .IllegalChar) []
                                        rem (by simp) rfl ?_
                                      unfold next_leaf_ty
                                      rw [if_neg h1, if_neg h2, if_neg h3,
                                        if_neg h4, if_neg h5,
                                        if_neg (fun hand => h6 hand.1),
                                        if_neg h6, if_neg h7, if_neg h8,
                                        if_neg (fun hand => h9 hand.1),
                                        if_neg h9,
                                        if_neg (fun hand => h10 hand.1),
                                        if_neg (fun hand => h11 hand.1),
                                        if_neg (fun hand => h12 hand.1),
                                        if_neg h12,
                                        if_neg (fun hand => h13 hand.1),
                                        if_neg h13,
                                        if_neg (fun hand => h14 hand.1),
                                        if_neg h14, if_neg h15, if_neg h16,
                                        if_neg h17, if_neg h18]
                                      simp [utf8Length]

set_option maxHeartbeats 1000000 in
/-- One iteration of `get_tokens`' main loop, starting from a clean cursor
(empty accumulator) on a non-empty remainder: it diverges inside an
unterminated comment, skips a whitespace/comment chunk, emits one non-`EOF`
leaf token spanning the consumed characters, pushes a frame for an opening
delimiter, or pops a frame for a closing delimiter, building a node that
spans from the opener's span to the closer (appending at most an
error-leaf to its children). -/
theorem getTokensFuel_step (n : Nat) (next : Char) (rest : Text) (B : Nat)
    (stack : List Frame) (tokens : List TokenTree) :
    getTokensFuel (n + 1) ⟨next :: rest, B, B, []⟩ stack tokens = none ∨
    (∃ consumed rest₂, next :: rest = consumed ++ rest₂ ∧
      Skippable consumed ∧ consumed ≠ [] ∧
      getTokensFuel (n + 1) ⟨next :: rest, B, B, []⟩ stack tokens
        = getTokensFuel n ⟨rest₂, B + utf8Length consumed,
            B + utf8Length consumed, []⟩ stack tokens) ∨
    (∃ ty consumed rest₂, ty ≠ TokenType.EOF ∧
      next :: rest = consumed ++ rest₂ ∧ consumed ≠ [] ∧
      getTokensFuel (n + 1) ⟨next :: rest, B, B, []⟩ stack tokens
        = getTokensFuel n ⟨rest₂, B + utf8Length consumed,
            B + utf8Length consumed, []⟩ stack
            (tokens ++ [.Leaf ⟨ty, ⟨B, B + utf8Length consumed⟩⟩])) ∨
    ((next = '(' ∨ next = '{' ∨ next = '[') ∧
      getTokensFuel (n + 1) ⟨next :: rest, B, B, []⟩ stack tokens
        = getTokensFuel n ⟨rest, B + next.utf8Size, B + next.utf8Size, []⟩
            (⟨ParenType.new_from_char next, ⟨B, B + next.utf8Size⟩, tokens⟩
              :: stack) []) ∨
    (∃ f st extra, stack = f :: st ∧ hasEOF extra = false ∧
      getTokensFuel (n + 1) ⟨next :: rest, B, B, []⟩ stack tokens
        = getTokensFuel n ⟨rest, B + next.utf8Size, B + next.utf8Size, []⟩
            st
            (f.tokens ++ [.Node f.ty f.span ⟨B, B + next.utf8Size⟩
              (tokens ++ extra)])) := by
  by_cases hopen : next = '(' ∨ next = '{' ∨ next = '['
  · refine Or.inr (Or.inr (Or.inr (Or.inl ⟨hopen, ?_⟩)))
    simp only [getTokensFuel, LexCursor.pop, List.nil_append]
    rw [if_pos hopen]
    simp [LexCursor.popped_as_span, utf8Length]
  · by_cases hclose : next = ')' ∨ next = '}' ∨ next = ']'
    · cases stack with
      | nil =>
          refine Or.inr (Or.inr (Or.inl ⟨.Error .UnmatchedCloseParen,
            [next], rest, by simp, rfl, by simp, ?_⟩))
          simp only [getTokensFuel, LexCursor.pop, List.nil_append]
          rw [if_neg hopen, if_pos hclose]
          simp [LexCursor.popped_as_token, LexCursor.popped_as_span,
            utf8Length]
      | cons f st =>
          by_cases hty : f.ty = ParenType.new_from_char next
          · refine Or.inr (Or.inr (Or.inr (Or.inr
              ⟨f, st, [], rfl, by simp [hasEOF], ?_⟩)))
            simp only [getTokensFuel, LexCursor.pop, List.nil_append]
            rw [if_neg hopen, if_pos hclose]
            simp only [LexCursor.popped_as_span]
            rw [if_neg (fun hne => hne hty)]
            simp [utf8Length]
          · refine Or.inr (Or.inr (Or.inr (Or.inr
              ⟨f, st, [.Leaf ⟨.Error (.MismatchedParenTy
                  (ParenType.new_from_char next)),
                ⟨B, B + next.utf8Size⟩⟩], rfl, by simp [hasEOF], ?_⟩)))
            simp only [getTokensFuel, LexCursor.pop, List.nil_append]
            rw [if_neg hopen, if_pos hclose]
            simp only [LexCursor.popped_as_span]
            rw [if_pos hty]
            simp [utf8Length, List.append_assoc]
    · rcases next_leaf_ty_spec next rest (B + next.utf8Size) B [next] with
        ⟨hws, heq⟩ | ⟨hsl, hh, hm, heq⟩ | ⟨hsl, hh, hm, heq⟩ |
        ⟨hmem, heq⟩ | ⟨ty, taken, rem₂, hne, hsplit, heq⟩
      · refine Or.inr (Or.inl ⟨[next], rest, by simp, ?_, by simp, ?_⟩)
        · exact Skippable.ws hws Skippable.nil
        · simp only [getTokensFuel, LexCursor.pop, List.nil_append]
          rw [if_neg hopen, if_neg hclose, heq]
          simp [utf8Length]
      · subst hsl
        obtain ⟨r₂, rfl⟩ : ∃ r₂, rest = '/' :: r₂ := by
          cases rest with
          | nil => simp at hh
          | cons c₀ r₂ =>
              have hc₀ : c₀ = '/' := by simpa using hh
              exact ⟨r₂, by rw [hc₀]⟩
        refine Or.inr (Or.inl
          ⟨'/' :: ('/' :: r₂).takeWhile (· ≠ '\n'),
           ('/' :: r₂).dropWhile (· ≠ '\n'), ?_, ?_, by simp, ?_⟩)
        · rw [← List.takeWhile_append_dropWhile
            (fun x => decide (x ≠ '\n')) ('/' :: r₂)]
          simp
        · have hbody : ('/' :: r₂).takeWhile (· ≠ '\n')
              = '/' :: r₂.takeWhile (· ≠ '\n') := by
            simp [List.takeWhile_cons]
          rw [hbody]
          have hcm := @Skippable.comment (r₂.takeWhile (· ≠ '\n')) []
            ?_ Skippable.nil
          · simpa using hcm
          · intro a ha
            have := List.mem_takeWhile_imp ha
            simpa using this
        · simp only [getTokensFuel, LexCursor.pop, List.nil_append]
          rw [if_neg hopen, if_neg hclose, heq]
          simp [utf8Length, Nat.add_assoc]
      · refine Or.inl ?_
        subst hsl
        simp only [getTokensFuel, LexCursor.pop, List.nil_append]
        rw [if_neg hopen, if_neg hclose, heq]
      · exfalso
        rcases hmem with rfl | rfl | rfl | rfl | rfl | rfl
        · exact hopen (Or.inl rfl)
        · exact hclose (Or.inl rfl)
        · exact hopen (Or.inr (Or.inl rfl))
        · exact hclose (Or.inr (Or.inl rfl))
        · exact hopen (Or.inr (Or.inr rfl))
        · exact hclose (Or.inr (Or.inr rfl))
      · refine Or.inr (Or.inr (Or.inl ⟨ty, next :: taken, rem₂, hne,
          by rw [hsplit]; rfl, by simp, ?_⟩))
        simp only [getTokensFuel, LexCursor.pop, List.nil_append]
        rw [if_neg hopen, if_neg hclose, heq]
        simp [LexCursor.popped_as_token, LexCursor.popped_as_span,
          utf8Length_cons, Nat.add_assoc]

/-! ## C9: the token stream ends in exactly one empty-span EOF token -/

theorem hasEOF_append (a b : List TokenTree) :
    hasEOF (a ++ b) = (hasEOF a || hasEOF b) := by
  induction a with
  | nil => simp [hasEOF]
  | cons t ts ih =>
      cases t with
      | Leaf tok => simp [hasEOF, ih, Bool.or_assoc]
      | Node p l r ch => simp [hasEOF, ih, Bool.or_assoc]

theorem hasEOF_drain (stack : List Frame) :
    ∀ tokens, hasEOF tokens = false →
      (∀ f ∈ stack, hasEOF f.tokens = false) →
      hasEOF (stack.foldl
        (fun toks f =>
          f.tokens
            ++ ([TokenTree.Leaf ⟨.Error .UnmatchedOpenParen, f.span⟩] ++ toks))
        tokens) = false := by
  induction stack with
  | nil => intro tokens h _; exact h
  | cons f st ih =>
      intro tokens h hall
      simp only [List.foldl_cons]
      apply ih
      · rw [hasEOF_append]
        simp [hasEOF, hall f (List.mem_cons_self f st), h]
      · intro g hg
        exact hall g (List.mem_cons_of_mem _ hg)

theorem getTokensFuel_eof :
    ∀ (fuel : Nat) (rem : Text) (B : Nat) (stack : List Frame)
      (tokens ts : List TokenTree),
      hasEOF tokens = false →
      (∀ f ∈ stack, hasEOF f.tokens = false) →
      getTokensFuel fuel ⟨rem, B, B, []⟩ stack tokens = some ts →
      ∃ init, ts = init
          ++ [.Leaf ⟨.EOF, ⟨B + utf8Length rem, B + utf8Length rem⟩⟩]
        ∧ hasEOF init = false := by
  intro fuel
  induction fuel with
  | zero =>
      intro rem B stack tokens ts _ _ h
      exact absurd h (by simp [getTokensFuel])
  | succ n ih =>
      intro rem B stack tokens ts htok hstack h
      cases rem with
      | nil =>
          rw [show getTokensFuel (n + 1) ⟨[], B, B, []⟩ stack tokens
            = some (finishTokens ⟨[], B, B, []⟩ stack tokens) from rfl] at h
          obtain rfl : finishTokens ⟨[], B, B, []⟩ stack tokens = ts :=
            Option.some_injective _ h
          exact ⟨_, rfl, hasEOF_drain stack tokens htok hstack⟩
      | cons next rest =>
          rcases getTokensFuel_step n next rest B stack tokens with
            hnone |
            ⟨consumed, rest₂, hsplit, -, -, hstep⟩ |
            ⟨ty, consumed, rest₂, hty, hsplit, -, hstep⟩ |
            ⟨-, hstep⟩ |
            ⟨f, st, extra, rfl, hex, hstep⟩
          · rw [hnone] at h; exact absurd h (by simp)
          · rw [hstep] at h
            obtain ⟨init, hts, hinit⟩ :=
              ih rest₂ (B + utf8Length consumed) stack tokens ts htok
                hstack h
            have hlen : B + utf8Length consumed + utf8Length rest₂
                = B + utf8Length (next :: rest) := by
              rw [hsplit, utf8Length_append]
              omega
            rw [hlen] at hts
            exact ⟨init, hts, hinit⟩
          · rw [hstep] at h
            have htok' : hasEOF (tokens ++ [.Leaf ⟨ty,
                ⟨B, B + utf8Length consumed⟩⟩]) = false := by
              rw [hasEOF_append]
              simp [hasEOF, htok, hty]
            obtain ⟨init, hts, hinit⟩ :=
              ih rest₂ (B + utf8Length consumed) stack _ ts htok' hstack h
            have hlen : B + utf8Length consumed + utf8Length rest₂
                = B + utf8Length (next :: rest) := by
              rw [hsplit, utf8Length_append]
              omega
            rw [hlen] at hts
            exact ⟨init, hts, hinit⟩
          · rw [hstep] at h
            have hstack' : ∀ g ∈ (⟨ParenType.new_from_char next,
                ⟨B, B + next.utf8Size⟩, tokens⟩ : Frame) :: stack,
                hasEOF g.tokens = false := by
              intro g hg
              rcases List.mem_cons.mp hg with rfl | hg
              · exact htok
              · exact hstack g hg
            obtain ⟨init, hts, hinit⟩ :=
              ih rest (B + next.utf8Size) _ [] ts (by simp [hasEOF])
                hstack' h
            have hlen : B + next.utf8Size + utf8Length rest
                = B + utf8Length (next :: rest) := by
              rw [utf8Length_cons]
              omega
            rw [hlen] at hts
            exact ⟨init, hts, hinit⟩
          · rw [hstep] at h
            have htok' : hasEOF (f.tokens ++ [.Node f.ty f.span
                ⟨B, B + next.utf8Size⟩ (tokens ++ extra)]) = false := by
              rw [hasEOF_append]
              have h1 : hasEOF f.tokens = false :=
                hstack f (List.mem_cons_self f st)
              have h2 : hasEOF (tokens ++ extra) = false := by
                rw [hasEOF_append, htok, hex]
                rfl
              simp [hasEOF, h1, h2]
            obtain ⟨init, hts, hinit⟩ :=
              ih rest (B + next.utf8Size) st _ ts htok'
                (fun g hg => hstack g (List.mem_cons_of_mem _ hg)) h
            have hlen : B + next.utf8Size + utf8Length rest
                = B + utf8Length (next :: rest) := by
              rw [utf8Length_cons]
              omega
            rw [hlen] at hts
            exact ⟨init, hts, hinit⟩

/-- C9: whenever the scan terminates, the top-level output is non-empty,
its final element is a leaf token of type `EOF` whose span is empty and
sits at the byte length of the text, and no `EOF` token occurs anywhere
else in the output — in particular never inside a nested node. -/
theorem eof_token_last (text : Text) (ts : List TokenTree)
    (h : get_tokens text = some ts) :
    ∃ init, ts = init
        ++ [.Leaf ⟨.EOF, ⟨utf8Length text, utf8Length text⟩⟩]
      ∧ hasEOF init = false := by
  have := getTokensFuel_eof (text.length + 1) text 0 [] [] ts
    (by simp [hasEOF]) (by simp) h
  simpa using this

/-- C9 witness: the scan of `"x"` terminates and its output decomposes as
required. -/
theorem eof_token_last_witness :
    ∃ init, [TokenTree.Leaf ⟨.Ident, ⟨0, 1⟩⟩,
        TokenTree.Leaf ⟨.EOF, ⟨1, 1⟩⟩]
      = init ++ [TokenTree.Leaf ⟨.EOF,
          ⟨utf8Length ['x'], utf8Length ['x']⟩⟩]
      ∧ hasEOF init = false :=
  eof_token_last ['x']
    [TokenTree.Leaf ⟨.Ident, ⟨0, 1⟩⟩, TokenTree.Leaf ⟨.EOF, ⟨1, 1⟩⟩] rfl

/-! ## C6: byte-slice arithmetic -/

theorem utf8Length_eq_zero (t : Text) : utf8Length t = 0 ↔ t = [] := by
  cases t with
  | nil => simp
  | cons c t =>
      have := Char.utf8Size_pos c
      simp only [utf8Length_cons]
      constructor
      · intro h; omega
      · intro h; exact absurd h (by simp)

theorem byteTake_zero (t : Text) : byteTake t 0 = [] := by
  cases t <;> rfl

theorem byteDrop_zero (t : Text) : byteDrop t 0 = t := by
  cases t <;> rfl

theorem byteDrop_utf8 (p s : Text) : byteDrop (p ++ s) (utf8Length p) = s := by
  induction p with
  | nil => rw [utf8Length_nil, List.nil_append, byteDrop_zero]
  | cons c p ih =>
      have hsz : 0 < c.utf8Size := Char.utf8Size_pos c
      have hpos : utf8Length (c :: p) = (c.utf8Size + utf8Length p - 1) + 1 := by
        simp only [utf8Length_cons]
        omega
      rw [List.cons_append, hpos]
      show byteDrop (c :: (p ++ s)) _ = s
      rw [byteDrop]
      have harg : c.utf8Size + utf8Length p - 1 + 1 - c.utf8Size
          = utf8Length p := by omega
      rw [harg, ih]

theorem byteTake_add (p s : Text) (k : Nat) :
    byteTake (p ++ s) (utf8Length p + k) = p ++ byteTake s k := by
  induction p with
  | nil => rw [utf8Length_nil, List.nil_append, List.nil_append, Nat.zero_add]
  | cons c p ih =>
      have hsz : 0 < c.utf8Size := Char.utf8Size_pos c
      have hpos : utf8Length (c :: p) + k
          = (c.utf8Size + (utf8Length p + k) - 1) + 1 := by
        simp only [utf8Length_cons]
        omega
      rw [List.cons_append, hpos]
      show byteTake (c :: (p ++ s)) _ = c :: (p ++ byteTake s k)
      rw [byteTake]
      have harg : c.utf8Size + (utf8Length p + k) - 1 + 1 - c.utf8Size
          = utf8Length p + k := by omega
      rw [harg, ih]

theorem byteTake_utf8 (p s : Text) : byteTake (p ++ s) (utf8Length p) = p := by
  have h := byteTake_add p s 0
  rw [Nat.add_zero, byteTake_zero, List.append_nil] at h
  exact h

theorem byteTake_full (t : Text) : byteTake t (utf8Length t) = t := by
  have := byteTake_utf8 t []
  simpa using this

/-- A common prefix decomposition: two prefix decompositions of the same
text whose byte lengths are ordered share a prefix. -/
theorem prefix_decomp (text p1 s1 p2 s2 : Text)
    (h1 : text = p1 ++ s1) (h2 : text = p2 ++ s2)
    (hle : utf8Length p1 ≤ utf8Length p2) :
    ∃ q, p2 = p1 ++ q ∧ s1 = q ++ s2 := by
  have hpre1 : p1 <+: text := ⟨s1, h1.symm⟩
  have hpre2 : p2 <+: text := ⟨s2, h2.symm⟩
  rcases List.prefix_or_prefix_of_prefix hpre1 hpre2 with hp | hp
  · obtain ⟨q, rfl⟩ := hp
    refine ⟨q, rfl, ?_⟩
    rw [h1, List.append_assoc] at h2
    exact List.append_cancel_left h2
  · obtain ⟨q, hq⟩ := hp
    have hlen : utf8Length p1 = utf8Length p2 + utf8Length q := by
      rw [← hq, utf8Length_append]
    have hq0 : utf8Length q = 0 := by omega
    have hqnil : q = [] := (utf8Length_eq_zero q).mp hq0
    subst hqnil
    rw [List.append_nil] at hq
    subst hq
    refine ⟨[], by simp, ?_⟩
    simp only [List.nil_append]
    rw [h1] at h2
    exact List.append_cancel_left h2

/-- Additivity of `text_of_span` at a boundary midpoint. -/
theorem text_of_span_split (text : Text) (lo mid hi : Nat)
    (hlo : Boundary text lo) (hmid : Boundary text mid)
    (h1 : lo ≤ mid) (h2 : mid ≤ hi) :
    text_of_span text ⟨lo, hi⟩
      = text_of_span text ⟨lo, mid⟩ ++ text_of_span text ⟨mid, hi⟩ := by
  obtain ⟨p1, s1, hd1, hl1⟩ := (boundary_iff text lo).mp hlo
  obtain ⟨p2, s2, hd2, hl2⟩ := (boundary_iff text mid).mp hmid
  obtain ⟨q, hq, hs1⟩ := prefix_decomp text p1 s1 p2 s2 hd1 hd2 (by omega)
  have hql : utf8Length q = mid - lo := by
    have h := congrArg utf8Length hq
    rw [utf8Length_append] at h
    omega
  show byteTake (byteDrop text lo) (hi - lo)
      = byteTake (byteDrop text lo) (mid - lo)
        ++ byteTake (byteDrop text mid) (hi - mid)
  have e1 : byteDrop text lo = s1 := by rw [hd1, ← hl1, byteDrop_utf8]
  have e2 : byteDrop text mid = s2 := by rw [hd2, ← hl2, byteDrop_utf8]
  have htake : byteTake (q ++ s2) (mid - lo) = q := by
    rw [← hql]
    exact byteTake_utf8 q s2
  have hsplit2 : hi - lo = utf8Length q + (hi - mid) := by omega
  rw [e1, e2, hs1, hsplit2, byteTake_add, htake]

theorem skippable_append {a b : Text} (ha : Skippable a) (hb : Skippable b) :
    Skippable (a ++ b) := by
  induction ha with
  | nil => exact hb
  | ws hc _ ih => exact Skippable.ws hc ih
  | comment hbody _ ih =>
      rw [List.cons_append, List.cons_append, List.append_assoc]
      exact Skippable.comment hbody ih

/-! ## C6: span chains -/

theorem SpanChain.le {text : Text} {lo hi : Nat} {spans : List Span}
    (h : SpanChain text lo spans hi) : lo ≤ hi := by
  induction h with
  | nil h1 _ _ _ => exact h1
  | cons h1 h2 _ _ _ _ _ ih => omega

theorem SpanChain.boundary_lo {text : Text} {lo hi : Nat}
    {spans : List Span} (h : SpanChain text lo spans hi) :
    Boundary text lo := by
  cases h with
  | nil _ h2 _ _ => exact h2
  | cons _ _ h3 _ _ _ _ => exact h3

theorem SpanChain.boundary_hi {text : Text} {lo hi : Nat}
    {spans : List Span} (h : SpanChain text lo spans hi) :
    Boundary text hi := by
  induction h with
  | nil _ _ h3 _ => exact h3
  | cons _ _ _ _ _ _ _ ih => exact ih

theorem spanChain_nil_refl (text : Text) (lo : Nat) (h : Boundary text lo) :
    SpanChain text lo [] lo := by
  refine SpanChain.nil (Nat.le_refl _) h h ?_
  rw [Nat.sub_self, byteTake_zero]
  exact Skippable.nil

/-- Absorb a leading skippable gap into a chain. -/
theorem spanChain_absorb_left {text : Text} {lo m hi : Nat} {ys : List Span}
    (hle : lo ≤ m) (hblo : Boundary text lo)
    (hskip : Skippable (text_of_span text ⟨lo, m⟩))
    (h2 : SpanChain text m ys hi) : SpanChain text lo ys hi := by
  cases h2 with
  | nil hle2 hblo2 hbhi2 hskip2 =>
      refine SpanChain.nil (by omega) hblo hbhi2 ?_
      have hsplit : byteTake (byteDrop text lo) (hi - lo)
          = byteTake (byteDrop text lo) (m - lo)
            ++ byteTake (byteDrop text m) (hi - m) :=
        text_of_span_split text lo m hi hblo hblo2 hle hle2
      rw [hsplit]
      exact skippable_append hskip hskip2
  | cons hle2 hss hblo2 hbs1 hbs2 hskip2 hsub =>
      rename_i s spans
      refine SpanChain.cons (by omega) hss hblo hbs1 hbs2 ?_ hsub
      have hsplit : byteTake (byteDrop text lo) (s.start - lo)
          = byteTake (byteDrop text lo) (m - lo)
            ++ byteTake (byteDrop text m) (s.start - m) :=
        text_of_span_split text lo m s.start hblo hblo2 hle hle2
      rw [hsplit]
      exact skippable_append hskip hskip2

theorem spanChain_append {text : Text} {m hi : Nat} {ys : List Span} :
    ∀ {lo : Nat} {xs : List Span}, SpanChain text lo xs m →
      SpanChain text m ys hi → SpanChain text lo (xs ++ ys) hi := by
  intro lo xs
  induction xs generalizing lo with
  | nil =>
      intro h1 h2
      cases h1 with
      | nil hle hblo _ hskip =>
          simpa using spanChain_absorb_left hle hblo hskip h2
  | cons s xs ih =>
      intro h1 h2
      cases h1 with
      | cons hle hss hblo hbs1 hbs2 hskip hsub =>
          exact SpanChain.cons hle hss hblo hbs1 hbs2 hskip (ih hsub h2)

theorem spanChain_split {text : Text} {hi : Nat} {ys : List Span} :
    ∀ {lo : Nat} {xs : List Span}, SpanChain text lo (xs ++ ys) hi →
      ∃ m, SpanChain text lo xs m ∧ SpanChain text m ys hi := by
  intro lo xs
  induction xs generalizing lo with
  | nil =>
      intro h
      exact ⟨lo, spanChain_nil_refl text lo h.boundary_lo, by simpa using h⟩
  | cons s xs ih =>
      intro h
      rw [List.cons_append] at h
      cases h with
      | cons hle hss hblo hbs1 hbs2 hskip hsub =>
          obtain ⟨m, hxm, hmy⟩ := ih hsub
          exact ⟨m, SpanChain.cons hle hss hblo hbs1 hbs2 hskip hxm, hmy⟩

/-- Extend a chain's right end over a skippable gap. -/
theorem spanChain_extend {text : Text} {hi hi' : Nat}
    (hle : hi ≤ hi') (hb : Boundary text hi')
    (hskip : Skippable (text_of_span text ⟨hi, hi'⟩)) :
    ∀ {lo : Nat} {spans : List Span}, SpanChain text lo spans hi →
      SpanChain text lo spans hi' := by
  intro lo spans
  induction spans generalizing lo with
  | nil =>
      intro h
      cases h with
      | nil h1 h2 h3 h4 =>
          refine SpanChain.nil (by omega) h2 hb ?_
          have hsplit : byteTake (byteDrop text lo) (hi' - lo)
              = byteTake (byteDrop text lo) (hi - lo)
                ++ byteTake (byteDrop text hi) (hi' - hi) :=
            text_of_span_split text lo hi hi' h2 h3 h1 hle
          rw [hsplit]
          exact skippable_append h4 hskip
  | cons s spans ih =>
      intro h
      cases h with
      | cons h1 h2 h3 h4 h5 h6 h7 =>
          exact SpanChain.cons h1 h2 h3 h4 h5 h6 (ih h7)

/-- Append one span that starts exactly at the chain's right end. -/
theorem spanChain_snoc {text : Text} {lo hi hi' : Nat} {spans : List Span}
    (h : SpanChain text lo spans hi) (hle : hi ≤ hi')
    (hb : Boundary text hi') :
    SpanChain text lo (spans ++ [⟨hi, hi'⟩]) hi' := by
  refine spanChain_append h ?_
  refine SpanChain.cons (Nat.le_refl _) hle h.boundary_hi h.boundary_hi hb
    ?_ (spanChain_nil_refl text hi' hb)
  rw [Nat.sub_self, byteTake_zero]
  exact Skippable.nil

/-- Merge a chain segment `[openSpan] ++ inner` into the single covering
span, as the lexer does when it closes a delimiter node. -/
theorem spanChain_merge {text : Text} {m hi hi' : Nat} {sp : Span}
    {inner : List Span} (h : SpanChain text m (sp :: inner) hi)
    (hle : hi ≤ hi') (hb : Boundary text hi') :
    SpanChain text m [⟨sp.start, hi'⟩] hi' := by
  cases h with
  | cons h1 h2 h3 h4 h5 h6 h7 =>
      have hstop := h7.le
      refine SpanChain.cons h1 (show sp.start ≤ hi' by omega) h3 h4 hb h6
        (spanChain_nil_refl text hi' hb)

/-! ## C6: the span-chain invariant of the main lexer loop -/

theorem skeleton_cons (f : Frame) (stack : List Frame)
    (toks : List TokenTree) :
    skeleton (f :: stack) toks
      = skeleton stack f.tokens ++ ([f.span] ++ toks.map treeSpan) := by
  simp [skeleton, frameSpans, List.append_assoc]

theorem skeleton_snoc (stack : List Frame) (tokens : List TokenTree)
    (t : TokenTree) :
    skeleton stack (tokens ++ [t]) = skeleton stack tokens ++ [treeSpan t] := by
  simp [skeleton]

theorem drain_spans (stack : List Frame) :
    ∀ tokens : List TokenTree,
      (stack.foldl
        (fun toks f =>
          f.tokens
            ++ ([TokenTree.Leaf ⟨.Error .UnmatchedOpenParen, f.span⟩] ++ toks))
        tokens).map treeSpan
      = (stack.reverse.map frameSpans).flatten ++ tokens.map treeSpan := by
  induction stack with
  | nil => intro tokens; simp
  | cons f st ih =>
      intro tokens
      simp only [List.foldl_cons]
      rw [ih]
      simp [frameSpans, treeSpan, List.append_assoc]

theorem finish_spans (B : Nat) (stack : List Frame)
    (tokens : List TokenTree) :
    (finishTokens ⟨[], B, B, []⟩ stack tokens).map treeSpan
      = skeleton stack tokens ++ [⟨B, B⟩] := by
  show ((stack.foldl _ tokens)
      ++ [((⟨[], B, B, []⟩ : LexCursor).popped_as_token .EOF).1]).map treeSpan
    = _
  rw [List.map_append, drain_spans]
  simp [skeleton, LexCursor.popped_as_token, LexCursor.popped_as_span,
    treeSpan, utf8Length]

/-- A span chain of the byte range `[lo, hi)` yields a segment
decomposition of that slice into the spans' texts. -/
theorem spanChain_segjoin {text : Text} :
    ∀ {lo hi : Nat} {spans : List Span}, SpanChain text lo spans hi →
      SegJoin (spans.map fun s => text_of_span text s)
        (byteTake (byteDrop text lo) (hi - lo)) := by
  intro lo hi spans h
  induction h with
  | nil h1 h2 h3 h4 => exact SegJoin.nil h4
  | cons h1 h2 h3 h4 h5 h6 h7 ih =>
      rename_i lo hi s spans
      have hbhi : Boundary text hi := h7.boundary_hi
      have hstop : s.stop ≤ hi := h7.le
      have hsplit1 : byteTake (byteDrop text lo) (hi - lo)
          = byteTake (byteDrop text lo) (s.start - lo)
            ++ byteTake (byteDrop text s.start) (hi - s.start) :=
        text_of_span_split text lo s.start hi h3 h4 h1 (by omega)
      have hsplit2 : byteTake (byteDrop text s.start) (hi - s.start)
          = byteTake (byteDrop text s.start) (s.stop - s.start)
            ++ byteTake (byteDrop text s.stop) (hi - s.stop) :=
        text_of_span_split text s.start s.stop hi h4 h5 h2 hstop
      rw [hsplit1, hsplit2, ← List.append_assoc]
      exact SegJoin.cons h6 ih

/-- The main-loop invariant: if the spans emitted or stacked so far chain
over the already-consumed prefix `[0, B)`, then on successful termination
the top-level output spans chain over the whole text. -/
theorem getTokensFuel_chain :
    ∀ (fuel : Nat) (rem : Text) (B : Nat) (stack : List Frame)
      (tokens ts : List TokenTree) (text pfx : Text),
      text = pfx ++ rem → utf8Length pfx = B →
      SpanChain text 0 (skeleton stack tokens) B →
      getTokensFuel fuel ⟨rem, B, B, []⟩ stack tokens = some ts →
      SpanChain text 0 (ts.map treeSpan) (utf8Length text) := by
  intro fuel
  induction fuel with
  | zero =>
      intro rem B stack tokens ts text pfx _ _ _ h
      exact absurd h (by simp [getTokensFuel])
  | succ n ih =>
      intro rem B stack tokens ts text pfx htext hlen hchain h
      cases rem with
      | nil =>
          rw [show getTokensFuel (n + 1) ⟨[], B, B, []⟩ stack tokens
            = some (finishTokens ⟨[], B, B, []⟩ stack tokens) from rfl] at h
          obtain rfl : finishTokens ⟨[], B, B, []⟩ stack tokens = ts :=
            Option.some_injective _ h
          rw [finish_spans]
          have hL : utf8Length text = B := by
            rw [htext, List.append_nil, hlen]
          rw [hL]
          exact spanChain_snoc hchain (Nat.le_refl B) hchain.boundary_hi
      | cons next rest =>
          rcases getTokensFuel_step n next rest B stack tokens with
            hnone |
            ⟨consumed, rest₂, hsplit, hskip, hne, hstep⟩ |
            ⟨ty, consumed, rest₂, hty, hsplit, hne, hstep⟩ |
            ⟨hopen, hstep⟩ |
            ⟨f, st, extra, rfl, hex, hstep⟩
          · rw [hnone] at h; exact absurd h (by simp)
          · -- a skippable chunk is consumed without emitting a token
            rw [hstep] at h
            have htext' : text = (pfx ++ consumed) ++ rest₂ := by
              rw [htext, hsplit, List.append_assoc]
            have hlen' : utf8Length (pfx ++ consumed)
                = B + utf8Length consumed := by
              rw [utf8Length_append, hlen]
            have hb' : Boundary text (B + utf8Length consumed) :=
              (boundary_iff text _).mpr ⟨_, _, htext', hlen'⟩
            have hdrop : byteDrop text B = consumed ++ rest₂ := by
              rw [htext', List.append_assoc, ← hlen]
              exact byteDrop_utf8 pfx (consumed ++ rest₂)
            have hskipspan :
                Skippable (text_of_span text ⟨B, B + utf8Length consumed⟩) := by
              show Skippable
                (byteTake (byteDrop text B) (B + utf8Length consumed - B))
              rw [show B + utf8Length consumed - B = utf8Length consumed
                  from by omega, hdrop, byteTake_utf8]
              exact hskip
            have hchain' :
                SpanChain text 0 (skeleton stack tokens)
                  (B + utf8Length consumed) :=
              spanChain_extend (Nat.le_add_right _ _) hb' hskipspan hchain
            exact ih rest₂ (B + utf8Length consumed) stack tokens ts text
              (pfx ++ consumed) htext' hlen' hchain' h
          · -- one leaf token spanning the consumed characters is emitted
            rw [hstep] at h
            have htext' : text = (pfx ++ consumed) ++ rest₂ := by
              rw [htext, hsplit, List.append_assoc]
            have hlen' : utf8Length (pfx ++ consumed)
                = B + utf8Length consumed := by
              rw [utf8Length_append, hlen]
            have hb' : Boundary text (B + utf8Length consumed) :=
              (boundary_iff text _).mpr ⟨_, _, htext', hlen'⟩
            have hchain' :
                SpanChain text 0
                  (skeleton stack (tokens
                    ++ [.Leaf ⟨ty, ⟨B, B + utf8Length consumed⟩⟩]))
                  (B + utf8Length consumed) := by
              rw [skeleton_snoc]
              exact spanChain_snoc hchain (Nat.le_add_right _ _) hb'
            exact ih rest₂ (B + utf8Length consumed) stack _ ts text
              (pfx ++ consumed) htext' hlen' hchain' h
          · -- an opening delimiter pushes a frame
            rw [hstep] at h
            have htext' : text = (pfx ++ [next]) ++ rest := by
              rw [htext]; simp
            have hlen' : utf8Length (pfx ++ [next]) = B + next.utf8Size := by
              simp [utf8Length_append, hlen]
            have hb' : Boundary text (B + next.utf8Size) :=
              (boundary_iff text _).mpr ⟨_, _, htext', hlen'⟩
            have hchain' :
                SpanChain text 0
                  (skeleton (⟨ParenType.new_from_char next,
                    ⟨B, B + next.utf8Size⟩, tokens⟩ :: stack) [])
                  (B + next.utf8Size) := by
              rw [skeleton_cons]
              simp only [List.map_nil, List.append_nil]
              exact spanChain_snoc hchain (Nat.le_add_right _ _) hb'
            exact ih rest (B + next.utf8Size) _ [] ts text (pfx ++ [next])
              htext' hlen' hchain' h
          · -- a closing delimiter pops a frame and builds a node
            rw [hstep] at h
            have htext' : text = (pfx ++ [next]) ++ rest := by
              rw [htext]; simp
            have hlen' : utf8Length (pfx ++ [next]) = B + next.utf8Size := by
              simp [utf8Length_append, hlen]
            have hb' : Boundary text (B + next.utf8Size) :=
              (boundary_iff text _).mpr ⟨_, _, htext', hlen'⟩
            rw [skeleton_cons] at hchain
            obtain ⟨m, hc1, hc2⟩ := spanChain_split hchain
            have hmerged :=
              spanChain_merge hc2 (Nat.le_add_right B next.utf8Size) hb'
            have hchain' :
                SpanChain text 0
                  (skeleton st (f.tokens
                    ++ [.Node f.ty f.span ⟨B, B + next.utf8Size⟩
                          (tokens ++ extra)]))
                  (B + next.utf8Size) := by
              rw [skeleton_snoc]
              exact spanChain_append hc1 hmerged
            exact ih rest (B + next.utf8Size) st _ ts text (pfx ++ [next])
              htext' hlen' hchain' h

/-- C6 (corrected): whenever the scan of `text` terminates, `text`
decomposes, in order, into the top-level trees' span texts interleaved with
whitespace/comment-only gaps.  The literal round-trip claimed by the spec —
concatenating the span texts alone reproduces `text` with all whitespace
and comments removed — fails, because a node's span covers the whole
delimited range including interior whitespace and comments (see the
counterexample). -/
theorem top_spans_reassemble (text : Text) (ts : List TokenTree)
    (h : get_tokens text = some ts) :
    SegJoin (ts.map fun t => text_of_span text (treeSpan t)) text := by
  have hchain := getTokensFuel_chain (text.length + 1) text 0 [] [] ts text []
    rfl rfl (spanChain_nil_refl text 0 (boundary_zero text)) h
  have hsj := spanChain_segjoin hchain
  rw [byteDrop_zero, Nat.sub_zero, byteTake_full, List.map_map] at hsj
  exact hsj

/-- C6 counterexample to the literal spec wording: on `"( )"` the lexer
builds one node spanning the whole input, so the concatenated top-level
span texts keep the interior space and differ from the input with
whitespace/comments removed. -/
theorem top_spans_counterexample :
    ∃ ts, get_tokens ['(', ' ', ')'] = some ts
      ∧ topSpanTexts ['(', ' ', ')'] ts
          ≠ stripWsComments ['(', ' ', ')'] := by
  refine ⟨[.Node .Paren ⟨0, 1⟩ ⟨2, 3⟩ [], .Leaf ⟨.EOF, ⟨3, 3⟩⟩], rfl, ?_⟩
  intro hcontra
  simp [topSpanTexts, treeSpan, stripWsComments, stripWsCommentsFuel,
    text_of_span, byteTake, byteDrop, isAsciiWhitespace] at hcontra

/-- C6 witness: the scan of `"( )"` terminates, and the decomposition holds
on its output. -/
theorem top_spans_reassemble_witness :
    get_tokens ['(', ' ', ')']
        = some [.Node .Paren ⟨0, 1⟩ ⟨2, 3⟩ [], .Leaf ⟨.EOF, ⟨3, 3⟩⟩]
      ∧ SegJoin
          ([TokenTree.Node .Paren ⟨0, 1⟩ ⟨2, 3⟩ [],
            TokenTree.Leaf ⟨.EOF, ⟨3, 3⟩⟩].map
            fun t => text_of_span ['(', ' ', ')'] (treeSpan t))
          ['(', ' ', ')'] :=
  ⟨rfl, top_spans_reassemble ['(', ' ', ')']
    [.Node .Paren ⟨0, 1⟩ ⟨2, 3⟩ [], .Leaf ⟨.EOF, ⟨3, 3⟩⟩] rfl⟩

/-! ## C8: render determinism under part reordering -/

/-- Two sorted permutations of each other with pairwise-distinct sort keys
are equal (`partStartLe` is not antisymmetric, so this needs the
distinct-keys hypothesis). -/
theorem sorted_perm_nodup_eq :
    ∀ (l1 l2 : List DiagnosticPart), l1.Perm l2 →
      l1.Sorted partStartLe → l2.Sorted partStartLe →
      (l1.map fun p => p.span.start).Nodup → l1 = l2 := by
  intro l1
  induction l1 with
  | nil =>
      intro l2 hp _ _ _
      cases l2 with
      | nil => rfl
      | cons b t => exact absurd hp.length_eq (by simp)
  | cons a t1 ih =>
      intro l2 hp hs1 hs2 hnd
      cases l2 with
      | nil => exact absurd hp.length_eq (by simp)
      | cons b t2 =>
          by_cases hab : a = b
          · subst hab
            have hp' := hp.cons_inv
            have hs1' := (List.sorted_cons.mp hs1).2
            have hs2' := (List.sorted_cons.mp hs2).2
            have hnd' : (t1.map fun p => p.span.start).Nodup := by
              simp only [List.map_cons, List.nodup_cons] at hnd
              exact hnd.2
            rw [ih t2 hp' hs1' hs2' hnd']
          · exfalso
            have hbmem : b ∈ a :: t1 :=
              hp.mem_iff.mpr (List.mem_cons_self b t2)
            have hamem : a ∈ b :: t2 :=
              hp.mem_iff.mp (List.mem_cons_self a t1)
            have hbt1 : b ∈ t1 := by
              rcases List.mem_cons.mp hbmem with h | h
              · exact absurd h.symm hab
              · exact h
            have hle1 : partStartLe a b := (List.sorted_cons.mp hs1).1 b hbt1
            have hle2 : partStartLe b a := by
              rcases List.mem_cons.mp hamem with h | h
              · exact absurd h hab
              · exact (List.sorted_cons.mp hs2).1 a h
            have heqst : a.span.start = b.span.start :=
              Nat.le_antisymm hle1 hle2
            exact hab (List.inj_on_of_nodup_map hnd
              (List.mem_cons_self a t1) (List.mem_cons_of_mem a hbt1) heqst)

/-- C8 (corrected): for a diagnostic whose parts each lie on a single
source line, two renders of diagnostics differing only in the discovery
order of their parts produce identical output, provided the parts' span
start offsets are pairwise distinct.  The stable sort orders only by span
start, so two distinct parts sharing a start byte keep their discovery
order and the output is not order-independent (see the counterexample). -/
theorem render_order_independent (src : RSource) (d1 d2 : Diagnostic)
    (hmsg : d1.msg = d2.msg) (hperm : d1.parts.Perm d2.parts)
    (hline : ∀ p ∈ d1.parts,
      line_of (computeNewlines src.text) p.span.start
        = line_of (computeNewlines src.text) p.span.stop)
    (hnodup : (d1.parts.map fun p => p.span.start).Nodup) :
    render d1 src = render d2 src := by
  have hsorteq : List.insertionSort partStartLe d1.parts
      = List.insertionSort partStartLe d2.parts := by
    apply sorted_perm_nodup_eq
    · exact (List.perm_insertionSort _ _).trans
        (hperm.trans (List.perm_insertionSort _ _).symm)
    · exact List.sorted_insertionSort _ _
    · exact List.sorted_insertionSort _ _
    · exact ((List.perm_insertionSort partStartLe d1.parts).map _).nodup_iff.mpr
        hnodup
  simp only [render, hsorteq, hmsg]

/-- C8 counterexample to order independence without distinct starts: two
parts highlighting the same span of `"ab\n"` with different help texts;
swapping their discovery order swaps them in the output, because the
stable sort keeps equal-keyed parts in discovery order. -/
theorem render_order_counterexample :
    render ⟨['m'], [⟨⟨0, 1⟩, ['o']⟩, ⟨⟨0, 1⟩, ['t']⟩]⟩
        ⟨['f'], ['a', 'b', '\n']⟩
      ≠ render ⟨['m'], [⟨⟨0, 1⟩, ['t']⟩, ⟨⟨0, 1⟩, ['o']⟩]⟩
        ⟨['f'], ['a', 'b', '\n']⟩ := by
  decide

/-- C8 witness: two diagnostics over `"ab\n"` with the same two
distinct-start single-line parts in opposite discovery orders render
identically. -/
theorem render_order_independent_witness :
    render ⟨['m'], [⟨⟨1, 2⟩, ['t']⟩, ⟨⟨0, 1⟩, ['o']⟩]⟩
        ⟨['f'], ['a', 'b', '\n']⟩
      = render ⟨['m'], [⟨⟨0, 1⟩, ['o']⟩, ⟨⟨1, 2⟩, ['t']⟩]⟩
        ⟨['f'], ['a', 'b', '\n']⟩ :=
  render_order_independent ⟨['f'], ['a', 'b', '\n']⟩
    ⟨['m'], [⟨⟨1, 2⟩, ['t']⟩, ⟨⟨0, 1⟩, ['o']⟩]⟩
    ⟨['m'], [⟨⟨0, 1⟩, ['o']⟩, ⟨⟨1, 2⟩, ['t']⟩]⟩
    rfl (by decide) (by decide) (by decide)

end FernC
